import Mathlib

/-!
# Oneditor: a shallow embedding of the editing core

The C program keeps the document in a global array `lines[MAX_LINES][MAX_COLS]`
of NUL-terminated byte strings, the cursor in `cx` (a visual column) and `cy`
(a line index), and a ring of whole-document snapshots for undo.

Conventions of the embedding:

* a C string is the list of its bytes before the terminator (`List Nat`, every
  byte non-zero); `s[i]` is `s.getD i 0`, so the terminator reads as `0`.  A read
  past the terminator also gives `0`; the C program reads whatever the 512-byte
  buffer holds there, which only happens on lines that end inside a multi-byte
  character.  A write behind the terminator leaves the string as it is.  Where
  the program copies a string out of the bytes behind a terminator
  (`insert_enter`), those bytes are an argument (`stale`);
* C `int` values that carry a sign in the program (`cx`, `cy`, `line_count`, the
  ring pointers, visual widths) are `Int`; byte offsets inside a line are `Nat`;
  no value in the program comes near the 32-bit range;
* the global arrays are functions from an `Int` index; the program only uses
  indices inside the array bounds when the cursor invariant holds;
* every `while`/`for` loop is a recursive function with a fuel argument, given
  as many rounds as the loop can ever make;
* what the program gets from outside is an argument: the console window size
  (`Console`), the second key code read by `_getwch()` (`next`), the UTF-8
  conversion `WideCharToMultiByte` (`wc2mb`), and for command mode (`CmdIO`) the
  text left in `cmd` by the input loop, the answer at the yes/no prompt and the
  file system.  Of `draw` and `set_mode` only the effect on the program's
  variables is kept, not the screen output; what the program does to the outside
  (`exit`, files written, `system`) is recorded in three fields of the state, and
  a fourth field (`fault`) records that it has made a library call whose
  behaviour C leaves undefined;
* the C library functions `tolower`, `atoi` and `fgets` are written out as the
  C standard describes them, `tolower` as in the C locale.
-/

namespace Oneditor

/-! ## Constants -/

/-- Maximal number of text lines. -/
def MAX_LINES : Int := 1000
/-- Size of one line buffer, terminator included. -/
def MAX_COLS : Int := 512
/-- Depth of the undo ring. -/
def UNDO_STACK : Int := 100
/-- Widest screen the renderer handles. -/
def MAX_COLS_SCREEN : Int := 256
/-- Number of command-history entries. -/
def CMD_HISTORY_MAX : Int := 100

/-! ## Glyph classification -/

/-- Byte length of the UTF-8 character whose first byte is `c`. -/
def utf8_len (c : Nat) : Nat :=
  if c &&& 0x80 = 0 then 1
  else if c &&& 0xE0 = 0xC0 then 2
  else if c &&& 0xF0 = 0xE0 then 3
  else if c &&& 0xF8 = 0xF0 then 4
  else 1

/-- Visual width (screen cells) of the character starting at byte `pos` of `s`. -/
def char_width (s : List Nat) (pos : Nat) : Int :=
  let c := s.getD pos 0
  if c < 0x80 then 1
  else if c &&& 0xE0 = 0xC0 then 1
  else if c &&& 0xF0 = 0xE0 then 2
  else if c &&& 0xF8 = 0xF0 then 2
  else 1

/-- Loop of `str_vis_width`: `for(i=0;s[i];) { w+=char_width(s,i); i+=utf8_len(s[i]); }`. -/
def str_vis_width_loop (s : List Nat) : Nat → Int → Nat → Int
  | 0, w, _ => w
  | fuel + 1, w, i =>
    if s.getD i 0 ≠ 0 then
      str_vis_width_loop s fuel (w + char_width s i) (i + utf8_len (s.getD i 0))
    else w

/-- Visual width of a whole line. -/
def str_vis_width (s : List Nat) : Int :=
  str_vis_width_loop s s.length 0 0

/-- Loop of `vis2real`:
`while(s[i]&&width<vis) { if(width+w>vis) break; width+=w; i+=clen; }`. -/
def vis2real_loop (s : List Nat) (vis : Int) : Nat → Int → Nat → Nat
  | 0, _, i => i
  | fuel + 1, width, i =>
    if s.getD i 0 ≠ 0 ∧ width < vis then
      let w := char_width s i
      let clen := utf8_len (s.getD i 0)
      if width + w > vis then i
      else vis2real_loop s vis fuel (width + w) (i + clen)
    else i

/-- Byte offset of the character at visual column `vis`. -/
def vis2real (s : List Nat) (vis : Int) : Nat :=
  vis2real_loop s vis s.length 0 0

/-- Delete the character at visual column `vis`:
`pos=vis2real(s,vis); if(!s[pos]) return; del=utf8_len(s[pos]); memmove(&s[pos],&s[pos+del],...)`. -/
def delvis (s : List Nat) (vis : Int) : List Nat :=
  let pos := vis2real s vis
  if s.getD pos 0 = 0 then s
  else
    let del := utf8_len (s.getD pos 0)
    s.take pos ++ s.drop (pos + del)

/-- Insert the `inslen` bytes of `ins` at visual column `vis`, unless the line
would reach `MAX_COLS-1` bytes:
`memmove(&s[pos+inslen],&s[pos],slen-pos+1); memcpy(&s[pos],ins,inslen);`.
When `pos` lies one past the terminator (`pos = slen+1`) the `memmove` moves
nothing and the bytes land behind the terminator, so the string is unchanged.
For `pos > slen+1` the length `slen-pos+1` handed to `memmove` is negative, which
C leaves undefined (in practice the program crashes): the result is `none`. -/
def insvis (s : List Nat) (vis : Int) (ins : List Nat) (inslen : Nat) : Option (List Nat) :=
  let pos := vis2real s vis
  let slen := s.length
  if (slen : Int) + (inslen : Int) ≥ MAX_COLS - 1 then some s
  else if pos ≤ slen then some (s.take pos ++ ins.take inslen ++ s.drop pos)
  else if pos = slen + 1 then some s
  else none

/-- Loop of `draw` that turns a byte offset back into a visual column:
`for(i=realstart;i<realpos;) { display_x+=char_width(s,i); i+=utf8_len(s[i]); }`. -/
def display_x_loop (s : List Nat) (realpos : Nat) : Nat → Int → Nat → Int
  | 0, x, _ => x
  | fuel + 1, x, i =>
    if i < realpos then
      display_x_loop s realpos fuel (x + char_width s i) (i + utf8_len (s.getD i 0))
    else x

/-- Value of `display_x` in `draw` for the byte range `realstart .. realpos`. -/
def display_x (s : List Nat) (realstart realpos : Nat) : Int :=
  display_x_loop s realpos (realpos - realstart) 0 realstart

/-- Loop of `move_cx_left`: walk the characters until the next one would reach `cx`. -/
def move_cx_left_loop (s : List Nat) (cx : Int) : Nat → Int → Nat → Int → Int
  | 0, _, _, last_cx => last_cx
  | fuel + 1, prev_cx, i, last_cx =>
    if s.getD i 0 ≠ 0 then
      let w := char_width s i
      let clen := utf8_len (s.getD i 0)
      if prev_cx + w ≥ cx then last_cx
      else move_cx_left_loop s cx fuel (prev_cx + w) (i + clen) (prev_cx + w)
    else last_cx

/-- Column of the character before column `cx`. -/
def move_cx_left (s : List Nat) (cx : Int) : Int :=
  if cx ≤ 0 then 0 else move_cx_left_loop s cx s.length 0 0 0

/-- Loop of `move_cx_right`: find the character that starts at `cx`. -/
def move_cx_right_loop (s : List Nat) (cx : Int) : Nat → Nat → Int → Int
  | 0, _, _ => cx
  | fuel + 1, i, cur_cx =>
    if s.getD i 0 ≠ 0 then
      let w := char_width s i
      let clen := utf8_len (s.getD i 0)
      if cur_cx = cx then cur_cx + w
      else move_cx_right_loop s cx fuel (i + clen) (cur_cx + w)
    else cx

/-- Column after the character that starts at column `cx`. -/
def move_cx_right (s : List Nat) (cx : Int) : Int :=
  move_cx_right_loop s cx s.length 0 0

/-! ## Editor state -/

/-- Editor mode. -/
inductive EditorMode
  | MODE_NORMAL
  | MODE_INSERT
  deriving DecidableEq

/-- One undo snapshot: a copy of the text and of the cursor. -/
structure UndoState where
  lines : Int → List Nat := fun _ => []
  line_count : Int := 0
  cx : Int := 0
  cy : Int := 0

/-- The global variables of the program (defaults are the C initialisers);
`gcount`, `ocount`, `dcount` are the static counters of `norm_combo_handler`.
The fields `exited`, `saved` and `shell` record what the program did to the
outside world: `exit(0)` was called, the files written by `file_save` (name and
lines), and the commands handed to `system`.  The field `fault` is set when the
program has made a library call whose behaviour C leaves undefined (`memmove`
with a negative length); the other fields tell nothing from then on. -/
structure Editor where
  lines : Int → List Nat := fun _ => []
  line_count : Int := 1
  cx : Int := 0
  cy : Int := 0
  insert_mode : Int := 0
  filename : List Nat := []
  last_pat : List Nat := []
  last_found : Int := -1
  show_lineno : Int := 0
  scroll : Int := 0
  hscroll : Int := 0
  undo_stack : Int → UndoState := fun _ => {}
  undo_top : Int := 0
  undo_cur : Int := 0
  mode : EditorMode := EditorMode.MODE_NORMAL
  cmd_history : Int → List Nat := fun _ => []
  cmd_history_count : Int := 0
  cmd_history_pos : Int := -1
  gcount : Int := 0
  ocount : Int := 0
  dcount : Int := 0
  exited : Bool := false
  saved : List (List Nat × List (List Nat)) := []
  shell : List (List Nat) := []
  fault : Bool := false

/-- What `GetConsoleScreenBufferInfo` reports: the size of the console window. -/
structure Console where
  win_rows : Int
  win_cols : Int

/-- Value of `count_lines(normal_help)`: the text has five line feeds. -/
def normal_help_count : Int := 6
/-- Value of `count_lines(insert_help)`: the text has three line feeds. -/
def insert_help_count : Int := 4

/-- The document as the list of its lines `lines[0..line_count)`. -/
def doc (s : Editor) : List (List Nat) :=
  (List.range s.line_count.toNat).map (fun (i : Nat) => s.lines (i : Int))

/-! ## Undo ring -/

/-- Loop `for (i=0;i<n;i++) strcpy(dst[i],src[i])` between two different arrays. -/
def copy_lines (dst src : Int → List Nat) : Nat → (Int → List Nat)
  | 0 => dst
  | n + 1 => Function.update (copy_lines dst src n) (n : Int) (src (n : Int))

/-- Push a snapshot of text and cursor on the undo ring. -/
def undo_save (s : Editor) : Editor :=
  let u := s.undo_stack s.undo_top
  let u1 : UndoState :=
    { lines := copy_lines u.lines s.lines s.line_count.toNat
      line_count := s.line_count, cx := s.cx, cy := s.cy }
  let stack1 := Function.update s.undo_stack s.undo_top u1
  let top1 := (s.undo_top + 1).tmod UNDO_STACK
  let cur1 := if top1 = s.undo_cur then (s.undo_cur + 1).tmod UNDO_STACK else s.undo_cur
  { s with undo_stack := stack1, undo_top := top1, undo_cur := cur1 }

/-- Pop the latest snapshot of the undo ring into text and cursor. -/
def undo_restore (s : Editor) : Editor :=
  if s.undo_top = s.undo_cur then s
  else
    let top1 := (s.undo_top - 1 + UNDO_STACK).tmod UNDO_STACK
    let u := s.undo_stack top1
    { s with undo_top := top1
             lines := copy_lines s.lines u.lines u.line_count.toNat
             line_count := u.line_count, cx := u.cx, cy := u.cy }

/-! ## Scrolling and mode switch -/

/-- Vertical scroll adjustment; `win_rows` is what the console reports. -/
def adjust_scroll (help_lines : Int) (con : Console) (s : Editor) : Editor :=
  let text_rows0 := con.win_rows - help_lines - 1
  let text_rows := if text_rows0 < 1 then 1 else text_rows0
  let max_scroll := if s.line_count > text_rows then s.line_count - text_rows else 0
  let scroll1 :=
    if s.cy < s.scroll then s.cy
    else if s.cy ≥ s.scroll + text_rows then s.cy - text_rows + 1
    else s.scroll
  let scroll2 := if scroll1 < 0 then 0 else scroll1
  let scroll3 := if scroll2 > max_scroll then max_scroll else scroll2
  { s with scroll := scroll3 }

/-- Horizontal scroll adjustment. -/
def adjust_hscroll (win_cols : Int) (s : Editor) : Editor :=
  let left_margin : Int := if s.show_lineno ≠ 0 then 5 else 0
  let text_cols0 := win_cols - left_margin
  let text_cols := if text_cols0 < 1 then 1 else text_cols0
  let hscroll1 :=
    if s.cx < s.hscroll then s.cx
    else if s.cx ≥ s.hscroll + text_cols then s.cx - text_cols + 1
    else s.hscroll
  let hscroll2 := if hscroll1 < 0 then 0 else hscroll1
  { s with hscroll := hscroll2 }

/-- Effect of `draw` on the program state: the two scroll adjustments (the
screen buffer is not part of the state). -/
def draw (con : Console) (s : Editor) : Editor :=
  let win_cols := if con.win_cols > MAX_COLS_SCREEN then MAX_COLS_SCREEN else con.win_cols
  let help_lines := (if s.insert_mode ≠ 0 then insert_help_count else normal_help_count) + 2
  adjust_hscroll win_cols (adjust_scroll help_lines con s)

/-- Mode switch followed by a redraw. -/
def set_mode (m : EditorMode) (con : Console) (s : Editor) : Editor :=
  let s1 := { s with mode := m, insert_mode := if m = EditorMode.MODE_INSERT then 1 else 0 }
  draw con (adjust_hscroll con.win_cols (adjust_scroll (normal_help_count + 2) con s1))

/-- Key `u`: `undo_restore(); set_mode(mode);`. -/
def undo_handler (con : Console) (s : Editor) : Editor :=
  let s1 := undo_restore s
  set_mode s1.mode con s1

/-! ## Normal-mode handlers -/

/-- Replace line `i` of the text. -/
def set_line (s : Editor) (i : Int) (l : List Nat) : Editor :=
  { s with lines := Function.update s.lines i l }

/-- Key `h` and the left arrow. -/
def norm_left (s : Editor) : Editor :=
  if s.cx > 0 then { s with cx := move_cx_left (s.lines s.cy) s.cx } else s

/-- Key `l` and the right arrow. -/
def norm_right (s : Editor) : Editor :=
  if s.cx < str_vis_width (s.lines s.cy) then { s with cx := move_cx_right (s.lines s.cy) s.cx }
  else s

/-- Clamp `cx` to the width of the cursor line:
`if(cx>str_vis_width(lines[cy])) cx=str_vis_width(lines[cy]);`. -/
def clamp_cx (s : Editor) : Editor :=
  if s.cx > str_vis_width (s.lines s.cy) then { s with cx := str_vis_width (s.lines s.cy) } else s

/-- Key `j` and the up arrow. -/
def norm_up (s : Editor) : Editor :=
  clamp_cx (if s.cy > 0 then { s with cy := s.cy - 1 } else s)

/-- Key `k` and the down arrow. -/
def norm_down (s : Editor) : Editor :=
  clamp_cx (if s.cy < s.line_count - 1 then { s with cy := s.cy + 1 } else s)

/-- Key `0`. -/
def norm_line_head (s : Editor) : Editor := { s with cx := 0 }

/-- Key `9`. -/
def norm_line_end (s : Editor) : Editor := { s with cx := str_vis_width (s.lines s.cy) }

/-- Key `x`: delete the character under the cursor. -/
def norm_del_char (s : Editor) : Editor :=
  let vislen := str_vis_width (s.lines s.cy)
  if s.cx < vislen then set_line s s.cy (delvis (s.lines s.cy) s.cx) else s

/-- Loop `for(i=start;i>lo;i--) strcpy(lines[i],lines[i-1])`, `i` being the
current index. -/
def shift_down_loop (lo : Int) : Nat → (Int → List Nat) → Int → (Int → List Nat)
  | 0, lines, _ => lines
  | fuel + 1, lines, i =>
    if i > lo then shift_down_loop lo fuel (Function.update lines i (lines (i - 1))) (i - 1)
    else lines

/-- Loop `for(i=start;i<hi;i++) strcpy(lines[i],lines[i+1])`, `i` being the
current index. -/
def shift_up_loop (hi : Int) : Nat → (Int → List Nat) → Int → (Int → List Nat)
  | 0, lines, _ => lines
  | fuel + 1, lines, i =>
    if i < hi then shift_up_loop hi fuel (Function.update lines i (lines (i + 1))) (i + 1)
    else lines

/-- Combination `oo`: open an empty line below the cursor. -/
def norm_insert_newline (s : Editor) : Editor :=
  if s.line_count < MAX_LINES - 1 then
    let lines1 := shift_down_loop (s.cy + 1) (s.line_count - (s.cy + 1)).toNat s.lines s.line_count
    { s with lines := Function.update lines1 (s.cy + 1) []
             cy := s.cy + 1, cx := 0, line_count := s.line_count + 1, insert_mode := 1 }
  else s

/-- Combination `dd`: delete the cursor line. -/
def norm_del_line (s : Editor) : Editor :=
  if s.line_count > 1 then
    let lines1 := shift_up_loop (s.line_count - 1) (s.line_count - 1 - s.cy).toNat s.lines s.cy
    let lc := s.line_count - 1
    let cy1 := if s.cy ≥ lc then lc - 1 else s.cy
    clamp_cx { s with lines := lines1, line_count := lc, cy := cy1 }
  else
    { s with lines := Function.update s.lines 0 [], cy := 0, cx := 0, line_count := 1 }

/-! ## Insert-mode dispatch -/

/-- Enter: split the cursor line at the cursor:
`realpos=vis2real(lines[cy],cx); strcpy(lines[cy+1],lines[cy]+realpos); lines[cy][realpos]=0;`.
When `realpos` lies behind the terminator of the cursor line, `strcpy` copies the
C string that the buffer holds at that offset, bytes left there by earlier,
longer contents of the buffer, which a line of the model does not record:
`stale` is that string.  The write of the terminator then falls behind the
terminator as well and leaves the cursor line as it is. -/
def insert_enter (stale : List Nat) (s : Editor) : Editor :=
  if s.line_count < MAX_LINES - 1 then
    let s1 := undo_save s
    let lines1 :=
      shift_down_loop (s1.cy + 1) (s1.line_count - (s1.cy + 1)).toNat s1.lines s1.line_count
    let realpos := vis2real (lines1 s1.cy) s1.cx
    let tail :=
      if realpos ≤ (lines1 s1.cy).length then (lines1 s1.cy).drop realpos else stale
    let lines2 := Function.update lines1 (s1.cy + 1) tail
    let lines3 := Function.update lines2 s1.cy ((lines2 s1.cy).take realpos)
    { s1 with lines := lines3, cy := s1.cy + 1, cx := 0, line_count := s1.line_count + 1 }
  else s

/-- Backspace: delete before the cursor, or join with the previous line. -/
def insert_backspace (s : Editor) : Editor :=
  if s.cx > 0 then
    let s1 := undo_save s
    { set_line s1 s1.cy (delvis (s1.lines s1.cy) (s1.cx - 1)) with cx := s1.cx - 1 }
  else if s.cy > 0 then
    let s1 := undo_save s
    let prevlen : Int := (s1.lines (s1.cy - 1)).length
    if prevlen + ((s1.lines s1.cy).length : Int) < MAX_COLS - 1 then
      let lines1 := Function.update s1.lines (s1.cy - 1) (s1.lines (s1.cy - 1) ++ s1.lines s1.cy)
      let lines2 := shift_up_loop (s1.line_count - 1) (s1.line_count - 1 - s1.cy).toNat lines1 s1.cy
      { s1 with lines := lines2, line_count := s1.line_count - 1, cy := s1.cy - 1
                cx := str_vis_width (lines2 (s1.cy - 1)) }
    else s1
  else s

/-- Arrow keys in Insert mode; `arrow` is the second code read from the console. -/
def insert_arrow (arrow : Int) (s : Editor) : Editor :=
  if arrow = 75 ∧ s.cx > 0 then { s with cx := move_cx_left (s.lines s.cy) s.cx }
  else if arrow = 77 ∧ s.cx < str_vis_width (s.lines s.cy) then
    { s with cx := move_cx_right (s.lines s.cy) s.cx }
  else if arrow = 72 ∧ s.cy > 0 then clamp_cx { s with cy := s.cy - 1 }
  else if arrow = 80 ∧ s.cy < s.line_count - 1 then clamp_cx { s with cy := s.cy + 1 }
  else s

/-- Insertion of the bytes `utf8` (what `WideCharToMultiByte` produced, `utflen`
bytes) at the cursor.  When the call of `insvis` is undefined the state is
marked with `fault`. -/
def insert_bytes (utf8 : List Nat) (s : Editor) : Editor :=
  let utflen := utf8.length
  if utflen > 0 ∧ ((s.lines s.cy).length : Int) + (utflen : Int) < MAX_COLS - 1 then
    let s1 := undo_save s
    match insvis (s1.lines s1.cy) s1.cx utf8 utflen with
    | some l => { set_line s1 s1.cy l with cx := s1.cx + char_width utf8 0 }
    | none => { s1 with fault := true }
  else s

/-- One key in Insert mode.  `wc2mb` stands for `WideCharToMultiByte(CP_UTF8,…)`
on a string of UTF-16 units; `next` is the value of the second `_getwch()` when
the key needs one (an arrow code or a low surrogate); `stale` is the string
behind the terminator of the cursor line that `insert_enter` may read. -/
def insert_dispatch (wc2mb : List Int → List Nat) (con : Console) (key next : Int)
    (stale : List Nat) (s : Editor) : Editor :=
  if key = 27 then set_mode EditorMode.MODE_NORMAL con s
  else if key = 13 ∨ key = 10 then insert_enter stale s
  else if key = 8 ∨ key = 127 then insert_backspace s
  else if key = 0 ∨ key = 224 then insert_arrow next s
  else if key ≥ 0xD800 ∧ key ≤ 0xDBFF then insert_bytes (wc2mb [key, next]) s
  else insert_bytes (wc2mb [key]) s

/-! ## Search -/

/-- The `tolower` of the C locale on a byte: only `A`..`Z` change. -/
def tolower (c : Nat) : Nat := if 65 ≤ c ∧ c ≤ 90 then c + 32 else c

/-- Inner loop of `strcasestr2`,
`while(*hh&&*nn&&tolower(*hh)==tolower(*nn)) hh++,nn++;`; the result is the
final offset `nn` in the needle. -/
def strcasestr2_inner (h n : List Nat) : Nat → Nat → Nat → Nat
  | 0, _, nn => nn
  | fuel + 1, hh, nn =>
    if h.getD hh 0 ≠ 0 ∧ n.getD nn 0 ≠ 0 ∧ tolower (h.getD hh 0) = tolower (n.getD nn 0) then
      strcasestr2_inner h n fuel (hh + 1) (nn + 1)
    else nn

/-- Outer loop of `strcasestr2`, `for (; *h; h++)`, with `i` the offset of `h`
in the haystack; the result is the offset of the first match. -/
def strcasestr2_outer (h n : List Nat) : Nat → Nat → Option Nat
  | 0, _ => none
  | fuel + 1, i =>
    if h.getD i 0 ≠ 0 then
      if n.getD (strcasestr2_inner h n n.length i 0) 0 = 0 then some i
      else strcasestr2_outer h n fuel (i + 1)
    else none

/-- Case-insensitive substring search; `none` is the `NULL` result. -/
def strcasestr2 (h n : List Nat) : Option Nat :=
  if n.getD 0 0 = 0 then some 0 else strcasestr2_outer h n h.length 0

/-- Loop `for(i=…;i<hi;i++) if(strcasestr2(lines[i],pattern)) return i;`, `i`
being the current index; `none` when the loop ends without a return. -/
def search_loop (lines : Int → List Nat) (pattern : List Nat) (hi : Int) :
    Nat → Int → Option Int
  | 0, _ => none
  | fuel + 1, i =>
    if i < hi then
      if (strcasestr2 (lines i) pattern).isSome then some i
      else search_loop lines pattern hi fuel (i + 1)
    else none

/-- Forward search from line `start`, wrapping to line 0. -/
def search_pat (s : Editor) (pattern : List Nat) (start : Int) : Int :=
  match search_loop s.lines pattern s.line_count (s.line_count - start).toNat start with
  | some i => i
  | none =>
    match search_loop s.lines pattern start start.toNat 0 with
    | some i => i
    | none => -1

/-- Loop `for(i=…;i>lo;i--) if(strcasestr2(lines[i],pattern)) return i;`. -/
def search_rev_loop (lines : Int → List Nat) (pattern : List Nat) (lo : Int) :
    Nat → Int → Option Int
  | 0, _ => none
  | fuel + 1, i =>
    if i > lo then
      if (strcasestr2 (lines i) pattern).isSome then some i
      else search_rev_loop lines pattern lo fuel (i - 1)
    else none

/-- Backward search from line `start`, wrapping to the last line. -/
def search_pat_rev (s : Editor) (pattern : List Nat) (start : Int) : Int :=
  match search_rev_loop s.lines pattern (-1) (start + 1).toNat start with
  | some i => i
  | none =>
    match search_rev_loop s.lines pattern start (s.line_count - 1 - start).toNat
        (s.line_count - 1) with
    | some i => i
    | none => -1

/-- Key `n`. -/
def norm_search_next (s : Editor) : Editor :=
  if s.last_pat.getD 0 0 ≠ 0 then
    let found := search_pat s s.last_pat (s.cy + 1)
    if found ≠ -1 then clamp_cx { s with cy := found, last_found := found } else s
  else s

/-- Key `N`. -/
def norm_search_prev (s : Editor) : Editor :=
  if s.last_pat.getD 0 0 ≠ 0 then
    let found := search_pat_rev s s.last_pat (s.cy - 1)
    if found ≠ -1 then clamp_cx { s with cy := found, last_found := found } else s
  else s

/-! ## Files -/

/-- What command mode gets from outside: the bytes in `cmd` when the input loop
ends (`none` when it was left with Esc), the line typed at the yes/no prompt,
whether `fopen(name,"w")` succeeds, and the bytes the stream of
`fopen(name,"r")` delivers (`none` when the file cannot be opened). -/
structure CmdIO where
  typed : Option (List Nat)
  answer : List Nat
  can_write : List Nat → Bool
  read_file : List Nat → Option (List Nat)

/-- Body of `fgets`: store at most `k` bytes, stopping after a line feed; the
result is the stored bytes and the unread rest of the stream. -/
def fgets_loop : Nat → List Nat → List Nat × List Nat
  | 0, rest => ([], rest)
  | _ + 1, [] => ([], [])
  | k + 1, c :: rest =>
    if c = 10 then ([c], rest)
    else ((c :: (fgets_loop k rest).1), (fgets_loop k rest).2)

/-- The call `fgets(buf, n, fp)` of the C library on the unread bytes of a
stream: `none` at end of file, else at most `n-1` bytes up to and including a
line feed. -/
def fgets (n : Nat) (stream : List Nat) : Option (List Nat × List Nat) :=
  if stream = [] then none else some (fgets_loop (n - 1) stream)

/-- The C string held by a buffer: the bytes before the first NUL. -/
def cstr (buf : List Nat) : List Nat := buf.takeWhile (fun b => b ≠ 0)

/-- Loop of `file_load`:
`while(fgets(lines[line_count],MAX_COLS,fp)&&line_count<MAX_LINES) { strip "\n"; line_count++; }`. -/
def file_load_loop : Nat → List Nat → (Int → List Nat) → Int → (Int → List Nat) × Int
  | 0, _, lines, lc => (lines, lc)
  | fuel + 1, stream, lines, lc =>
    match fgets 512 stream with
    | none => (lines, lc)
    | some (chunk, rest) =>
      let lines1 := Function.update lines lc (cstr chunk)
      if lc < MAX_LINES then
        let l := lines1 lc
        let l1 := if l.length ≠ 0 ∧ l.getD (l.length - 1) 0 = 10 then l.take (l.length - 1) else l
        file_load_loop fuel rest (Function.update lines1 lc l1) (lc + 1)
      else (lines1, lc)

/-- Load a file into the text; the cursor is left where it was. -/
def file_load (io : CmdIO) (fname : List Nat) (s : Editor) : Editor :=
  match io.read_file fname with
  | none => s
  | some stream =>
    let r := file_load_loop (stream.length + 1) stream s.lines 0
    { s with lines := r.1, line_count := r.2, filename := fname.take 255 }

/-- Write the text to a file. -/
def file_save (io : CmdIO) (fname : List Nat) (s : Editor) : Editor :=
  if io.can_write fname then
    { s with saved := s.saved ++ [(fname, doc s)], filename := fname.take 255 }
  else s

/-! ## Command mode -/

/-- The test `c==' '||c=='\t'`. -/
def is_blank (c : Nat) : Bool := c = 32 || c = 9

/-- Strip blanks and tabs at both ends. -/
def trim (s : List Nat) : List Nat :=
  ((s.dropWhile is_blank).reverse.dropWhile is_blank).reverse

/-- The `isspace` of the C locale. -/
def isspace (c : Nat) : Bool := c = 32 || (9 ≤ c && c ≤ 13)

/-- Digit loop of `atoi`. -/
def atoi_digits : List Nat → Int → Int
  | [], acc => acc
  | c :: cs, acc =>
    if 48 ≤ c ∧ c ≤ 57 then atoi_digits cs (acc * 10 + ((c : Int) - 48)) else acc

/-- The `atoi` of the C library: white space, an optional sign, decimal digits.
Values outside the range of `int` are undefined in C and not reduced here. -/
def atoi (s : List Nat) : Int :=
  match s.dropWhile isspace with
  | 45 :: r => - atoi_digits r 0
  | 43 :: r => atoi_digits r 0
  | r => atoi_digits r 0

/-- Whether the line typed at the yes/no prompt starts, after blanks, with `y` or `Y`. -/
def answer_yes (a : List Nat) : Bool :=
  ((a.take 15).dropWhile is_blank).headD 0 = 121 || ((a.take 15).dropWhile is_blank).headD 0 = 89

/-- The file name `"test.txt"`. -/
def test_txt : List Nat := [116, 101, 115, 116, 46, 116, 120, 116]

/-- Append a submitted command to the history, dropping the oldest entry when
the history is full. -/
def history_append (cmd : List Nat) (s : Editor) : Editor :=
  if cmd.getD 0 0 ≠ 0 then
    if s.cmd_history_count = 0 ∨ cmd ≠ s.cmd_history (s.cmd_history_count - 1) then
      if s.cmd_history_count < CMD_HISTORY_MAX then
        { s with cmd_history := Function.update s.cmd_history s.cmd_history_count cmd
                 cmd_history_count := s.cmd_history_count + 1 }
      else
        { s with cmd_history :=
            (Function.update (shift_up_loop (CMD_HISTORY_MAX - 1) 99 s.cmd_history 0)
              (CMD_HISTORY_MAX - 1) cmd) }
    else s
  else s

/-- Key `:`: the command line.  The input loop (typing, Backspace, history
recall) is not modelled; `io.typed` is the text it leaves in `cmd`. -/
def norm_cmdmode (con : Console) (io : CmdIO) (s : Editor) : Editor :=
  match io.typed with
  | none => draw con s
  | some raw =>
    let cmd := trim raw
    let s1 := history_append cmd s
    if cmd.take 3 = [103, 111, 32] then
      let lineno := atoi (cmd.drop 3)
      draw con
        (if lineno ≥ 1 ∧ lineno ≤ s1.line_count then clamp_cx { s1 with cy := lineno - 1 }
         else s1)
    else if cmd.take 2 = [102, 32] then
      let s2 := { s1 with last_pat := (trim (cmd.drop 2)).take 127 }
      let found := search_pat s2 s2.last_pat (s2.cy + 1)
      draw con
        (if found ≠ -1 then clamp_cx { s2 with cy := found, last_found := found }
         else { s2 with last_pat := [] })
    else if cmd.take 2 = [119, 113] then
      if cmd.getD 2 0 = 32 ∧ cmd.getD 3 0 ≠ 0 then
        { file_save io (cmd.drop 3) s1 with exited := true }
      else if s1.filename = [] then
        if answer_yes io.answer then { file_save io test_txt s1 with exited := true }
        else draw con s1
      else { file_save io s1.filename s1 with exited := true }
    else if cmd.take 2 = [119, 32] then draw con (file_save io (cmd.drop 2) s1)
    else if cmd = [119] then
      draw con
        (if s1.filename = [] then
          (if answer_yes io.answer then file_save io test_txt s1 else s1)
         else file_save io s1.filename s1)
    else if cmd = [113] ∨ cmd = [113, 33] then { s1 with exited := true }
    else if cmd.take 2 = [114, 32] then draw con (file_load io (cmd.drop 2) s1)
    else if cmd = [115, 101, 116, 32, 110, 117] then draw con { s1 with show_lineno := 1 }
    else if cmd = [115, 101, 116, 32, 110, 111, 110, 117] then
      draw con { s1 with show_lineno := 0 }
    else if cmd.getD 0 0 = 33 then draw con { s1 with shell := s1.shell ++ [cmd.drop 1] }
    else draw con s1

/-! ## Normal-mode dispatch -/

/-- Key `i`. -/
def norm_insert (con : Console) (s : Editor) : Editor :=
  set_mode EditorMode.MODE_INSERT con s

/-- Key `I`. -/
def norm_insert_head (con : Console) (s : Editor) : Editor :=
  set_mode EditorMode.MODE_INSERT con { s with cx := 0 }

/-- Key `A`. -/
def norm_insert_end (con : Console) (s : Editor) : Editor :=
  set_mode EditorMode.MODE_INSERT con { s with cx := str_vis_width (s.lines s.cy) }

/-- Handler of the keys `g`, `G`, `o`, `d` and of every key without a table
entry.  `G` counts on `gcount`, as in the source. -/
def norm_combo_handler (key : Int) (s : Editor) : Editor :=
  if key = 103 then
    let s1 := { s with gcount := s.gcount + 1 }
    if s1.gcount = 2 then { clamp_cx { s1 with cy := 0 } with gcount := 0 } else s1
  else if key = 71 then
    let s1 := { s with gcount := s.gcount + 1 }
    if s1.gcount = 2 then { clamp_cx { s1 with cy := s1.line_count - 1 } with gcount := 0 }
    else s1
  else if key = 111 then
    let s1 := { s with ocount := s.ocount + 1 }
    if s1.ocount = 2 then { norm_insert_newline s1 with ocount := 0 } else s1
  else if key = 100 then
    let s1 := { s with dcount := s.dcount + 1 }
    if s1.dcount = 2 then { norm_del_line s1 with dcount := 0 } else s1
  else { s with gcount := 0, ocount := 0, dcount := 0 }

/-- The command table `normal_cmds`: key code and handler, in source order
(`i I A h l j k 0 9 x u : n N d g G o`). -/
def normal_cmds : List (Int × (Console → CmdIO → Int → Editor → Editor)) :=
  [ (105, fun con _ _ s => norm_insert con s),
    (73, fun con _ _ s => norm_insert_head con s),
    (65, fun con _ _ s => norm_insert_end con s),
    (104, fun _ _ _ s => norm_left s),
    (108, fun _ _ _ s => norm_right s),
    (106, fun _ _ _ s => norm_up s),
    (107, fun _ _ _ s => norm_down s),
    (48, fun _ _ _ s => norm_line_head s),
    (57, fun _ _ _ s => norm_line_end s),
    (120, fun _ _ _ s => norm_del_char s),
    (117, fun con _ _ s => undo_handler con s),
    (58, fun con io _ s => norm_cmdmode con io s),
    (110, fun _ _ _ s => norm_search_next s),
    (78, fun _ _ _ s => norm_search_prev s),
    (100, fun _ _ key s => norm_combo_handler key s),
    (103, fun _ _ key s => norm_combo_handler key s),
    (71, fun _ _ key s => norm_combo_handler key s),
    (111, fun _ _ key s => norm_combo_handler key s) ]

/-- Loop of `norm_dispatch` over the table entries not yet tried. -/
def norm_dispatch_loop (con : Console) (io : CmdIO) (key : Int) (s : Editor) :
    List (Int × (Console → CmdIO → Int → Editor → Editor)) → Editor
  | [] => norm_combo_handler key s
  | (k, handler) :: rest =>
    if k = key then handler con io key s else norm_dispatch_loop con io key s rest

/-- One key in Normal mode. -/
def norm_dispatch (con : Console) (io : CmdIO) (key : Int) (s : Editor) : Editor :=
  norm_dispatch_loop con io key s normal_cmds

/-- Run a sequence of Normal-mode keys, first one first. -/
def norm_keys (con : Console) (io : CmdIO) : List Int → Editor → Editor
  | [], s => s
  | key :: keys, s => norm_keys con io keys (norm_dispatch con io key s)

/-! ## Vocabulary of the claims about the undo ring -/

/-- The snapshot `u` records text and cursor of the document `d`. -/
def SnapOf (u d : UndoState) : Prop :=
  u.line_count = d.line_count ∧ u.cx = d.cx ∧ u.cy = d.cy ∧
    ∀ i : Int, 0 ≤ i → i < d.line_count → u.lines i = d.lines i

/-- Text and cursor of an editor state as a snapshot value. -/
def live (s : Editor) : UndoState :=
  { lines := s.lines, line_count := s.line_count, cx := s.cx, cy := s.cy }

/-- Replace text and cursor by those of `d`, leaving the undo ring alone: an
arbitrary edit made without a snapshot. -/
def set_doc (d : UndoState) (s : Editor) : Editor :=
  { s with lines := d.lines, line_count := d.line_count, cx := d.cx, cy := d.cy }

/-- The calls that touch or bypass the undo ring. -/
inductive RingOp
  | save
  | restore
  | edit (d : UndoState)

/-- Run one ring operation. -/
def run_op : RingOp → Editor → Editor
  | RingOp.save, s => undo_save s
  | RingOp.restore, s => undo_restore s
  | RingOp.edit d, s => set_doc d s

/-- Run a sequence of ring operations, first one first. -/
def run_ops : List RingOp → Editor → Editor
  | [], s => s
  | op :: ops, s => run_ops ops (run_op op s)

/-- Bring the editor to each document of the list in turn and call `undo_save`
on it: consecutive saves of the states `ds`. -/
def save_all : List UndoState → Editor → Editor
  | [], s => s
  | d :: ds, s => save_all ds (undo_save (set_doc d s))

/-- `n` consecutive calls of `undo_restore`. -/
def restore_n : Nat → Editor → Editor
  | 0, s => s
  | n + 1, s => restore_n n (undo_restore s)

/-! ## Sample states -/

/-- The document `["abc","def"]` with the cursor at column 0 of line 0. -/
def sample_abc_def : Editor :=
  { lines := fun i => if i = 0 then [97, 98, 99] else if i = 1 then [100, 101, 102] else []
    line_count := 2, cx := 0, cy := 0 }

/-- UTF-8 bytes of a code point below `0x110000`. -/
def sample_utf8 (u : Nat) : List Nat :=
  if u < 0x80 then [u]
  else if u < 0x800 then [0xC0 ||| (u >>> 6), 0x80 ||| (u &&& 0x3F)]
  else if u < 0x10000 then [0xE0 ||| (u >>> 12), 0x80 ||| ((u >>> 6) &&& 0x3F), 0x80 ||| (u &&& 0x3F)]
  else [0xF0 ||| (u >>> 18), 0x80 ||| ((u >>> 12) &&& 0x3F), 0x80 ||| ((u >>> 6) &&& 0x3F),
    0x80 ||| (u &&& 0x3F)]

/-- A conversion of UTF-16 units to UTF-8 in the manner of `WideCharToMultiByte`:
one unit, or a surrogate pair, gives the bytes of its code point. -/
def sample_wc2mb (w : List Int) : List Nat :=
  match w with
  | [u] => sample_utf8 u.toNat
  | [hi, lo] => sample_utf8 (0x10000 + (hi.toNat - 0xD800) * 0x400 + (lo.toNat - 0xDC00))
  | _ => []

/-- A console window of 25 rows and 80 columns. -/
def sample_console : Console := ⟨25, 80⟩

/-- Outside world in which the command line holds `cmd`, the answer at the
prompt is empty, no file can be written and the only readable file is the empty
file named `"e"`. -/
def sample_io (cmd : List Nat) : CmdIO :=
  { typed := some cmd, answer := [], can_write := fun _ => false
    read_file := fun name => if name = [101] then some [] else none }

/-- Outside world in which the command line holds `cmd` and every file can be
written; no file can be read and the answer at the prompt is empty. -/
def sample_io_writable (cmd : List Nat) : CmdIO :=
  { typed := some cmd, answer := [], can_write := fun _ => true
    read_file := fun _ => none }

/-- The document `["abc","def"]` opened from the file named `"a"`. -/
def sample_named : Editor := { sample_abc_def with filename := [97] }

/-- The documents number 0 to 100, told apart by their cursor column. -/
def sample_docs : List UndoState :=
  (List.range 101).map (fun (k : Nat) => { cx := (k : Int) })

/-- The one-line document `["中"]` with the cursor after the wide character. -/
def sample_wide : Editor :=
  { lines := fun i => if i = 0 then [228, 184, 173] else []
    line_count := 1, cx := 2, cy := 0 }

/-- The document `["ab","cd"]` with the cursor at column 0 of line 1. -/
def sample_ab_cd : Editor :=
  { lines := fun i => if i = 0 then [97, 98] else if i = 1 then [99, 100] else []
    line_count := 2, cx := 0, cy := 1 }

/-! ## Vocabulary of the claims about the command history -/

/-- The needle `n` occurs in `h` at offset `i`, bytes compared after `tolower`. -/
def MatchAt (h n : List Nat) (i : Nat) : Prop :=
  i + n.length ≤ h.length ∧
    ∀ k, k < n.length → tolower (h.getD (i + k) 0) = tolower (n.getD k 0)

/-- The line `h` contains `n` as an ASCII-case-insensitive byte substring; the
empty needle occurs in every line. -/
def Contains (h n : List Nat) : Prop := ∃ i, MatchAt h n i

/-- Every line buffer holds a string of at most `MAX_COLS-1` bytes. -/
def LinesBounded (s : Editor) : Prop :=
  ∀ i : Int, ((s.lines i).length : Int) ≤ MAX_COLS - 1

/-- The document `["a","b","c"]` with the cursor at column 1 of line 0. -/
def sample_three_lines : Editor :=
  { lines := fun i => if i = 0 then [97] else if i = 1 then [98] else if i = 2 then [99] else []
    line_count := 3, cx := 1, cy := 0 }

/-- The document `["hello", [0xC3]]` with the cursor at `(0,0)`, as loaded from
a file whose second line ends inside a two-byte character. -/
def sample_hello_cut : Editor :=
  { lines := fun i => if i = 0 then [104, 101, 108, 108, 111] else if i = 1 then [195] else []
    line_count := 2, cx := 0, cy := 0 }

/-- The one-line document `[[0xE4]]` with the cursor at `(0,0)`, as loaded from
a Latin-1 file holding the letter `ä`: a three-byte lead without continuation
bytes. -/
def sample_cut_lead : Editor :=
  { lines := fun i => if i = 0 then [228] else []
    line_count := 1, cx := 0, cy := 0 }

/-- The one-line document `[[0xC3]]` with the cursor at `(0,0)`: a two-byte
lead without its continuation byte. -/
def sample_cut_pair : Editor :=
  { lines := fun i => if i = 0 then [195] else []
    line_count := 1, cx := 0, cy := 0 }

/-- The one-line document `["ä"]` with the cursor at the end of the line. -/
def sample_umlaut : Editor :=
  { lines := fun i => if i = 0 then [195, 164] else []
    line_count := 1, cx := 1, cy := 0 }

/-! ## Vocabulary of the claims about lines -/

/-- The line holds no NUL byte: it is the content of a C string. -/
def NulFree (s : List Nat) : Prop := ∀ b ∈ s, b ≠ 0

/-- Character-start offsets of a line: offset 0, and from a start `o` inside the
line the offset `o + utf8_len(s[o])`. -/
inductive CharStart (s : List Nat) : Nat → Prop
  | zero : CharStart s 0
  | step {o : Nat} : CharStart s o → o < s.length → CharStart s (o + utf8_len (s.getD o 0))

/-- A line made of complete UTF-8 characters: no NUL byte, and stepping from
character to character ends exactly on the terminator. -/
def Complete (s : List Nat) : Prop := NulFree s ∧ CharStart s s.length

/-- The bytes of one complete character: not empty, as many bytes as the lead
byte announces, none of them NUL. -/
def IsChar (c : List Nat) : Prop :=
  c ≠ [] ∧ c.length = utf8_len (c.headD 0) ∧ NulFree c

/-- Concatenation of a list of characters into a line. -/
def concat_chars : List (List Nat) → List Nat
  | [] => []
  | c :: cs => c ++ concat_chars cs

/-- Sum of the visual widths of a list of characters. -/
def chars_width : List (List Nat) → Int
  | [] => 0
  | c :: cs => char_width c 0 + chars_width cs

/-- Offset, relative to the first character of `cs`, at which the walk of
`vis2real` stops when it enters `cs` with the width `width` already counted. -/
def chars_stop (vis : Int) : List (List Nat) → Int → Nat
  | [], _ => 0
  | c :: cs, width =>
    if width < vis ∧ ¬ (width + char_width c 0 > vis) then
      c.length + chars_stop vis cs (width + char_width c 0)
    else 0

end Oneditor

namespace Oneditor

/-! ## Glyph facts -/

theorem utf8_len_pos (c : Nat) : 0 < utf8_len c := by
  unfold utf8_len
  split_ifs <;> omega

theorem char_width_pos (s : List Nat) (i : Nat) : 0 < char_width s i := by
  unfold char_width
  simp only
  split_ifs <;> omega

theorem char_width_le_two (s : List Nat) (i : Nat) : char_width s i ≤ 2 := by
  unfold char_width
  simp only
  split_ifs <;> omega

theorem getD_at_char (pre c rest : List Nat) (hc : c ≠ []) :
    (pre ++ (c ++ rest)).getD pre.length 0 = c.headD 0 := by
  cases c with
  | nil => exact absurd rfl hc
  | cons a t =>
    rw [List.getD_append_right _ _ _ _ (le_refl _)]
    simp

theorem char_width_at_char (pre c rest : List Nat) (hc : c ≠ []) :
    char_width (pre ++ (c ++ rest)) pre.length = char_width c 0 := by
  unfold char_width
  rw [getD_at_char pre c rest hc]
  cases c with
  | nil => exact absurd rfl hc
  | cons a t => simp

theorem isChar_head_ne_zero {c : List Nat} (h : IsChar c) : c.headD 0 ≠ 0 := by
  obtain ⟨hne, _, hz⟩ := h
  cases c with
  | nil => exact absurd rfl hne
  | cons a t => exact hz a (by simp)

theorem chars_width_nonneg (cs : List (List Nat)) : 0 ≤ chars_width cs := by
  induction cs with
  | nil => simp [chars_width]
  | cons c cs ih =>
    have := char_width_pos c 0
    simp only [chars_width]
    omega

theorem concat_chars_append (as bs : List (List Nat)) :
    concat_chars (as ++ bs) = concat_chars as ++ concat_chars bs := by
  induction as with
  | nil => simp [concat_chars]
  | cons c cs ih => simp [concat_chars, ih]

theorem chars_width_append (as bs : List (List Nat)) :
    chars_width (as ++ bs) = chars_width as + chars_width bs := by
  induction as with
  | nil => simp [chars_width]
  | cons c cs ih =>
    rw [List.cons_append, chars_width, chars_width, ih]
    omega

theorem length_le_concat_chars (cs : List (List Nat)) (h : ∀ c ∈ cs, IsChar c) :
    cs.length ≤ (concat_chars cs).length := by
  induction cs with
  | nil => simp
  | cons c cs ih =>
    have hc := h c (by simp)
    have hpos : 0 < c.length := List.length_pos.mpr hc.1
    have := ih (fun d hd => h d (by simp [hd]))
    simp only [concat_chars, List.length_cons, List.length_append]
    omega

/-! ## The loops stop by their own test: more fuel changes nothing -/

theorem getD_eq_zero_of_length_le (s : List Nat) (i : Nat) (h : s.length ≤ i) :
    s.getD i 0 = 0 := by
  rw [List.getD_eq_getElem?_getD, List.getElem?_eq_none h]
  rfl

/-- With `s.length - i` rounds left the loop of `vis2real` has reached its exit
test; extra rounds are never used. -/
theorem vis2real_loop_fuel (s : List Nat) (vis : Int) (extra : Nat) (fuel : Nat) :
    ∀ (width : Int) (i : Nat), s.length ≤ i + fuel →
      vis2real_loop s vis (fuel + extra) width i = vis2real_loop s vis fuel width i := by
  induction fuel with
  | zero =>
    intro width i h
    have h0 := getD_eq_zero_of_length_le s i (by omega)
    cases extra with
    | zero => rfl
    | succ e =>
      rw [Nat.zero_add]
      simp only [vis2real_loop, h0]
      simp
  | succ f ih =>
    intro width i h
    have hp := utf8_len_pos (s.getD i 0)
    rw [show f + 1 + extra = (f + extra) + 1 by omega, vis2real_loop, vis2real_loop]
    dsimp only
    rw [ih _ _ (by omega)]

/-- The loop of `str_vis_width` likewise never uses more than `s.length - i` rounds. -/
theorem str_vis_width_loop_fuel (s : List Nat) (extra : Nat) (fuel : Nat) :
    ∀ (w : Int) (i : Nat), s.length ≤ i + fuel →
      str_vis_width_loop s (fuel + extra) w i = str_vis_width_loop s fuel w i := by
  induction fuel with
  | zero =>
    intro w i h
    have h0 := getD_eq_zero_of_length_le s i (by omega)
    cases extra with
    | zero => rfl
    | succ e =>
      rw [Nat.zero_add]
      simp only [str_vis_width_loop, h0]
      simp
  | succ f ih =>
    intro w i h
    have hp := utf8_len_pos (s.getD i 0)
    rw [show f + 1 + extra = (f + extra) + 1 by omega, str_vis_width_loop, str_vis_width_loop]
    rw [ih _ _ (by omega)]

/-- The loop of `draw` never uses more than `realpos - i` rounds. -/
theorem display_x_loop_fuel (s : List Nat) (realpos : Nat) (extra : Nat) (fuel : Nat) :
    ∀ (x : Int) (i : Nat), realpos ≤ i + fuel →
      display_x_loop s realpos (fuel + extra) x i = display_x_loop s realpos fuel x i := by
  induction fuel with
  | zero =>
    intro x i h
    cases extra with
    | zero => rfl
    | succ e =>
      rw [Nat.zero_add, display_x_loop, display_x_loop, if_neg (by omega)]
  | succ f ih =>
    intro x i h
    have hp := utf8_len_pos (s.getD i 0)
    rw [show f + 1 + extra = (f + extra) + 1 by omega, display_x_loop, display_x_loop]
    rw [ih _ _ (by omega)]

/-! ## The character walk of `vis2real` -/

/-- One round of the `vis2real` loop standing on a complete character. -/
theorem vis2real_loop_at_char (pre c rest : List Nat) (vis : Int) (fuel : Nat) (width : Int)
    (hc : IsChar c) :
    vis2real_loop (pre ++ (c ++ rest)) vis (fuel + 1) width pre.length =
      if width < vis ∧ ¬ (width + char_width c 0 > vis) then
        vis2real_loop (pre ++ (c ++ rest)) vis fuel (width + char_width c 0)
          (pre.length + c.length)
      else pre.length := by
  have h0 : (pre ++ (c ++ rest)).getD pre.length 0 ≠ 0 := by
    rw [getD_at_char pre c rest hc.1]; exact isChar_head_ne_zero hc
  rw [vis2real_loop]
  simp only [h0, ne_eq, not_false_eq_true, true_and]
  rw [char_width_at_char pre c rest hc.1, getD_at_char pre c rest hc.1, ← hc.2.1]
  by_cases h1 : width < vis
  · by_cases h2 : width + char_width c 0 > vis
    · simp [h1, h2]
    · simp [h1, h2]
  · simp [h1]

/-- The loop of `vis2real`, entering a run of complete characters `cs`, stops
where `chars_stop` says, provided the run is followed by the terminator or the
target column lies inside the run. -/
theorem vis2real_loop_chars (cs : List (List Nat)) :
    ∀ (pre rest : List Nat) (vis : Int) (fuel : Nat) (width : Int),
      (∀ c ∈ cs, IsChar c) → cs.length ≤ fuel →
      (rest = [] ∨ vis ≤ width + chars_width cs) →
      vis2real_loop (pre ++ (concat_chars cs ++ rest)) vis fuel width pre.length =
        pre.length + chars_stop vis cs width := by
  induction cs with
  | nil =>
    intro pre rest vis fuel width _ _ hend
    simp only [concat_chars, List.nil_append, chars_stop, Nat.add_zero]
    cases fuel with
    | zero => rfl
    | succ f =>
      rw [vis2real_loop]
      rcases hend with h | h
      · subst h
        simp
      · simp only [chars_width, add_zero] at h
        have : ¬ width < vis := by omega
        simp [this]
  | cons c cs ih =>
    intro pre rest vis fuel width hcs hfuel hend
    have hc : IsChar c := hcs c (by simp)
    have hcs2 : ∀ d ∈ cs, IsChar d := fun d hd => hcs d (by simp [hd])
    cases fuel with
    | zero => simp at hfuel
    | succ f =>
      have hf : cs.length ≤ f := by simpa using hfuel
      simp only [concat_chars, List.append_assoc, chars_stop]
      rw [vis2real_loop_at_char pre c (concat_chars cs ++ rest) vis f width hc]
      by_cases hgo : width < vis ∧ ¬ (width + char_width c 0 > vis)
      · rw [if_pos hgo, if_pos hgo]
        have hend2 : rest = [] ∨ vis ≤ width + char_width c 0 + chars_width cs := by
          rcases hend with h | h
          · exact Or.inl h
          · right; simp only [chars_width] at h; omega
        have := ih (pre ++ c) rest vis f (width + char_width c 0) hcs2 hf hend2
        simp only [List.append_assoc, List.length_append] at this
        rw [this]
        omega
      · rw [if_neg hgo, if_neg hgo]
        rfl

/-- Walking exactly the width of a run of complete characters ends right after it. -/
theorem chars_stop_exact (cs : List (List Nat)) :
    ∀ (width : Int), chars_stop (width + chars_width cs) cs width = (concat_chars cs).length := by
  induction cs with
  | nil => intro width; simp [chars_stop, concat_chars]
  | cons c cs ih =>
    intro width
    have hp := char_width_pos c 0
    have hn := chars_width_nonneg cs
    simp only [chars_stop, chars_width, concat_chars, List.length_append]
    have hgo : width < width + (char_width c 0 + chars_width cs) ∧
        ¬ (width + char_width c 0 > width + (char_width c 0 + chars_width cs)) := by
      constructor <;> omega
    rw [if_pos hgo]
    have := ih (width + char_width c 0)
    rw [show width + char_width c 0 + chars_width cs
        = width + (char_width c 0 + chars_width cs) by omega] at this
    rw [this]

/-- `vis2real` at the width of a leading run of complete characters returns the
byte length of that run, whatever follows. -/
theorem vis2real_chars_prefix (cs : List (List Nat)) (rest : List Nat)
    (hcs : ∀ c ∈ cs, IsChar c) :
    vis2real (concat_chars cs ++ rest) (chars_width cs) = (concat_chars cs).length := by
  unfold vis2real
  have hlen : cs.length ≤ (concat_chars cs ++ rest).length := by
    have := length_le_concat_chars cs hcs
    simp only [List.length_append]
    omega
  have := vis2real_loop_chars cs [] rest (chars_width cs) _ 0 hcs hlen (Or.inr (by omega))
  simp only [List.nil_append, List.length_nil, Nat.zero_add] at this
  rw [this]
  have h2 := chars_stop_exact cs 0
  simp only [zero_add] at h2
  exact h2

/-- One round of the `display_x` loop of `draw` standing on a complete character. -/
theorem display_x_loop_chars (cs : List (List Nat)) :
    ∀ (pre rest : List Nat) (fuel : Nat) (x : Int),
      (∀ c ∈ cs, IsChar c) → cs.length ≤ fuel →
      display_x_loop (pre ++ (concat_chars cs ++ rest)) (pre.length + (concat_chars cs).length)
        fuel x pre.length = x + chars_width cs := by
  induction cs with
  | nil =>
    intro pre rest fuel x _ _
    simp only [concat_chars, List.length_nil, Nat.add_zero, chars_width, add_zero]
    cases fuel with
    | zero => rfl
    | succ f => rw [display_x_loop]; simp
  | cons c cs ih =>
    intro pre rest fuel x hcs hfuel
    have hc : IsChar c := hcs c (by simp)
    have hcs2 : ∀ d ∈ cs, IsChar d := fun d hd => hcs d (by simp [hd])
    have hpos : 0 < c.length := List.length_pos.mpr hc.1
    cases fuel with
    | zero => simp at hfuel
    | succ f =>
      have hf : cs.length ≤ f := by simpa using hfuel
      simp only [concat_chars, List.append_assoc, chars_width, List.length_append]
      rw [display_x_loop]
      have hlt : pre.length < pre.length + (c.length + (concat_chars cs).length) := by omega
      rw [if_pos hlt, char_width_at_char pre c _ hc.1, getD_at_char pre c _ hc.1, ← hc.2.1]
      have := ih (pre ++ c) rest f (x + char_width c 0) hcs2 hf
      simp only [List.append_assoc, List.length_append] at this
      rw [show pre.length + (c.length + (concat_chars cs).length)
          = pre.length + c.length + (concat_chars cs).length by omega, this]
      omega

/-- The loop of `str_vis_width` over a run of complete characters that ends the line. -/
theorem str_vis_width_loop_chars (cs : List (List Nat)) :
    ∀ (pre : List Nat) (fuel : Nat) (w : Int),
      (∀ c ∈ cs, IsChar c) → cs.length ≤ fuel →
      str_vis_width_loop (pre ++ concat_chars cs) fuel w pre.length = w + chars_width cs := by
  induction cs with
  | nil =>
    intro pre fuel w _ _
    simp only [concat_chars, List.append_nil, chars_width, add_zero]
    cases fuel with
    | zero => rfl
    | succ f => rw [str_vis_width_loop]; simp
  | cons c cs ih =>
    intro pre fuel w hcs hfuel
    have hc : IsChar c := hcs c (by simp)
    have hcs2 : ∀ d ∈ cs, IsChar d := fun d hd => hcs d (by simp [hd])
    cases fuel with
    | zero => simp at hfuel
    | succ f =>
      have hf : cs.length ≤ f := by simpa using hfuel
      simp only [concat_chars, chars_width]
      rw [str_vis_width_loop]
      have h0 : (pre ++ (c ++ concat_chars cs)).getD pre.length 0 ≠ 0 := by
        rw [getD_at_char pre c _ hc.1]; exact isChar_head_ne_zero hc
      rw [if_pos h0, char_width_at_char pre c _ hc.1, getD_at_char pre c _ hc.1, ← hc.2.1]
      have := ih (pre ++ c) f (w + char_width c 0) hcs2 hf
      simp only [List.append_assoc, List.length_append] at this
      rw [this]
      omega

/-- Visual width of a line given as a list of complete characters. -/
theorem str_vis_width_chars (cs : List (List Nat)) (hcs : ∀ c ∈ cs, IsChar c) :
    str_vis_width (concat_chars cs) = chars_width cs := by
  unfold str_vis_width
  have := str_vis_width_loop_chars cs [] (concat_chars cs).length 0 hcs
    (length_le_concat_chars cs hcs)
  simpa using this

/-- `display_x` over a leading run of complete characters is the width of the run. -/
theorem display_x_chars (cs : List (List Nat)) (rest : List Nat) (hcs : ∀ c ∈ cs, IsChar c) :
    display_x (concat_chars cs ++ rest) 0 (concat_chars cs).length = chars_width cs := by
  unfold display_x
  have := display_x_loop_chars cs [] rest ((concat_chars cs).length - 0) 0 hcs
    (by have := length_le_concat_chars cs hcs; omega)
  simpa using this

/-! ## Character starts as runs of complete characters -/

theorem nulFree_take {s : List Nat} (h : NulFree s) (n : Nat) : NulFree (s.take n) :=
  fun b hb => h b (List.mem_of_mem_take hb)

theorem nulFree_drop {s : List Nat} (h : NulFree s) (n : Nat) : NulFree (s.drop n) :=
  fun b hb => h b (List.mem_of_mem_drop hb)

theorem nulFree_append {s t : List Nat} (hs : NulFree s) (ht : NulFree t) : NulFree (s ++ t) := by
  intro b hb
  rcases List.mem_append.mp hb with h | h
  · exact hs b h
  · exact ht b h

theorem nulFree_getD_ne_zero {s : List Nat} (h : NulFree s) {i : Nat} (hi : i < s.length) :
    s.getD i 0 ≠ 0 := by
  rw [List.getD_eq_getElem _ _ hi]
  exact h _ (List.getElem_mem hi)

theorem concat_chars_nulFree (cs : List (List Nat)) (hcs : ∀ c ∈ cs, IsChar c) :
    NulFree (concat_chars cs) := by
  induction cs with
  | nil => intro b hb; simp [concat_chars] at hb
  | cons c cs ih =>
    exact nulFree_append (hcs c (by simp)).2.2 (ih (fun d hd => hcs d (by simp [hd])))

/-- The bytes before a character start inside a NUL-free line split into
complete characters. -/
theorem charStart_chars {s : List Nat} (hs : NulFree s) {o : Nat} (ho : CharStart s o) :
    o ≤ s.length → ∃ cs : List (List Nat), (∀ c ∈ cs, IsChar c) ∧ concat_chars cs = s.take o := by
  induction ho with
  | zero => intro _; exact ⟨[], by simp, by simp [concat_chars]⟩
  | @step o _ hlt ih =>
    intro hle
    obtain ⟨cs, hcs, hcat⟩ := ih (by omega)
    have hn := utf8_len_pos (s.getD o 0)
    let c := (s.drop o).take (utf8_len (s.getD o 0))
    have hclen : c.length = utf8_len (s.getD o 0) := by
      simp only [c, List.length_take, List.length_drop]
      exact min_eq_left (by omega)
    have hcne : c ≠ [] := by
      intro h
      have h0 : c.length = 0 := by rw [h]; rfl
      omega
    have hhead : c.headD 0 = s.getD o 0 := by
      have h1 : s.drop o = s.getD o 0 :: s.drop (o + 1) := by
        rw [List.getD_eq_getElem _ _ hlt]
        exact List.drop_eq_getElem_cons hlt
      simp only [c, h1]
      obtain ⟨k, hk⟩ : ∃ k, utf8_len (s.getD o 0) = k + 1 := ⟨utf8_len (s.getD o 0) - 1, by omega⟩
      rw [hk]
      simp
    have hc : IsChar c := ⟨hcne, by rw [hclen, hhead], nulFree_take (nulFree_drop hs o) _⟩
    refine ⟨cs ++ [c], ?_, ?_⟩
    · intro d hd
      rcases List.mem_append.mp hd with h | h
      · exact hcs d h
      · simp at h; rw [h]; exact hc
    · rw [concat_chars_append, hcat]
      simp only [concat_chars, List.append_nil, c]
      rw [List.take_add]

/-- A complete line is a concatenation of complete characters. -/
theorem complete_chars {s : List Nat} (h : Complete s) :
    ∃ cs : List (List Nat), (∀ c ∈ cs, IsChar c) ∧ concat_chars cs = s := by
  obtain ⟨cs, hcs, hcat⟩ := charStart_chars h.1 h.2 (le_refl _)
  exact ⟨cs, hcs, by simpa using hcat⟩

/-- A NUL-free line is the run of complete characters before a character start
followed by the rest of the line. -/
theorem charStart_split {s : List Nat} (hs : NulFree s) {o : Nat} (ho : CharStart s o)
    (hle : o ≤ s.length) :
    ∃ cs : List (List Nat), (∀ c ∈ cs, IsChar c) ∧ s = concat_chars cs ++ s.drop o ∧
      (concat_chars cs).length = o ∧ display_x s 0 o = chars_width cs := by
  obtain ⟨cs, hcs, hcat⟩ := charStart_chars hs ho hle
  have hlen : (concat_chars cs).length = o := by
    rw [hcat, List.length_take]; exact min_eq_left hle
  have hsplit : s = concat_chars cs ++ s.drop o := by
    rw [hcat, List.take_append_drop]
  refine ⟨cs, hcs, hsplit, hlen, ?_⟩
  have := display_x_chars cs (s.drop o) hcs
  rw [← hsplit, hlen] at this
  exact this

/-- The end of a run of complete characters is a character start. -/
theorem charStart_after_chars (cs : List (List Nat)) :
    ∀ (pre rest : List Nat), (∀ c ∈ cs, IsChar c) →
      CharStart (pre ++ (concat_chars cs ++ rest)) pre.length →
      CharStart (pre ++ (concat_chars cs ++ rest)) (pre.length + (concat_chars cs).length) := by
  induction cs with
  | nil => intro pre rest _ h; simpa [concat_chars] using h
  | cons c cs ih =>
    intro pre rest hcs h
    have hc : IsChar c := hcs c (by simp)
    have hcs2 : ∀ d ∈ cs, IsChar d := fun d hd => hcs d (by simp [hd])
    have hpos : 0 < c.length := List.length_pos.mpr hc.1
    simp only [concat_chars, List.append_assoc, List.length_append] at h ⊢
    have hstep := CharStart.step h (by simp only [List.length_append]; omega)
    rw [getD_at_char pre c _ hc.1, ← hc.2.1] at hstep
    have := ih (pre ++ c) rest hcs2
    simp only [List.append_assoc, List.length_append] at this
    have h2 := this hstep
    rw [show pre.length + (c.length + (concat_chars cs).length)
        = pre.length + c.length + (concat_chars cs).length by omega]
    exact h2

/-- Where the walk of `vis2real` stops inside a run of complete characters. -/
theorem chars_stop_cases (vis : Int) (cs : List (List Nat)) :
    ∀ (width : Int), width ≤ vis →
      (width + chars_width cs ≤ vis → chars_stop vis cs width = (concat_chars cs).length) ∧
      (vis < width + chars_width cs → ∃ cs1 c cs2, cs = cs1 ++ c :: cs2 ∧
        chars_stop vis cs width = (concat_chars cs1).length) := by
  induction cs with
  | nil =>
    intro width hw
    refine ⟨fun _ => by simp [chars_stop, concat_chars], fun h => ?_⟩
    simp only [chars_width, add_zero] at h
    omega
  | cons c cs ih =>
    intro width hw
    have hp := char_width_pos c 0
    have hn := chars_width_nonneg cs
    simp only [chars_width, chars_stop, concat_chars, List.length_append]
    by_cases hgo : width < vis ∧ ¬ (width + char_width c 0 > vis)
    · rw [if_pos hgo]
      obtain ⟨h1, h2⟩ := ih (width + char_width c 0) (by omega)
      constructor
      · intro h
        rw [h1 (by omega)]
      · intro h
        obtain ⟨cs1, d, cs2, he, hstop⟩ := h2 (by omega)
        refine ⟨c :: cs1, d, cs2, by rw [he]; rfl, ?_⟩
        rw [hstop]
        simp [concat_chars]
    · rw [if_neg hgo]
      constructor
      · intro h
        exfalso
        apply hgo
        constructor <;> omega
      · intro _
        exact ⟨[], c, cs, rfl, by simp [concat_chars]⟩

/-- The walk never stops beyond the run of characters it is given. -/
theorem chars_stop_le (vis : Int) (cs : List (List Nat)) :
    ∀ width : Int, chars_stop vis cs width ≤ (concat_chars cs).length := by
  induction cs with
  | nil => intro width; simp [chars_stop]
  | cons c cs ih =>
    intro width
    simp only [chars_stop, concat_chars, List.length_append]
    split_ifs
    · have := ih (width + char_width c 0)
      omega
    · omega

/-- On a line of complete characters `vis2real` stays within the line for every
column: the walk reads no byte after the terminator. -/
theorem vis2real_le_length_of_complete (s : List Nat) (vis : Int) (hs : Complete s) :
    vis2real s vis ≤ s.length := by
  obtain ⟨cs, hcs, hcat⟩ := complete_chars hs
  subst hcat
  unfold vis2real
  have := vis2real_loop_chars cs [] [] vis (concat_chars cs).length 0 hcs
    (length_le_concat_chars cs hcs) (Or.inl rfl)
  simp only [List.nil_append, List.append_nil, List.length_nil, Nat.zero_add] at this
  rw [this]
  exact chars_stop_le vis cs 0

/-- `take`/`drop` around a character inside a line. -/
theorem take_drop_around (pre c rest : List Nat) :
    (pre ++ (c ++ rest)).take pre.length ++ (pre ++ (c ++ rest)).drop (pre.length + c.length)
      = pre ++ rest := by
  rw [List.take_left, ← List.append_assoc, ← List.length_append, List.drop_left]

/-- `vis2real` inverts the column computation of `draw` at character starts. -/
theorem vis2real_at_char_start {s : List Nat} (hs : NulFree s) {o : Nat}
    (ho : CharStart s o) (hle : o ≤ s.length) :
    vis2real s (display_x s 0 o) = o := by
  obtain ⟨cs, hcs, hsplit, hlen, hdx⟩ := charStart_split hs ho hle
  rw [hdx]
  have := vis2real_chars_prefix cs (s.drop o) hcs
  rw [← hsplit, hlen] at this
  exact this

/-- The capacity guard of `insvis`: a line that would reach `MAX_COLS-1` bytes is
left as it is. -/
theorem insvis_at_capacity (s : List Nat) (vis : Int) (ins : List Nat) (inslen : Nat)
    (h : MAX_COLS - 1 ≤ (s.length : Int) + (inslen : Int)) :
    insvis s vis ins inslen = some s := by
  unfold insvis
  simp only
  rw [if_pos (by omega)]

/-! ## Array loops in closed form -/

theorem copy_lines_apply (dst src : Int → List Nat) (n : Nat) (i : Int) :
    copy_lines dst src n i = if 0 ≤ i ∧ i < n then src i else dst i := by
  induction n with
  | zero =>
    simp only [copy_lines]
    rw [if_neg]
    push_cast
    omega
  | succ n ih =>
    simp only [copy_lines, Function.update_apply]
    by_cases h : i = (n : Int)
    · subst h
      simp
    · rw [if_neg h, ih]
      by_cases h2 : 0 ≤ i ∧ i < n
      · rw [if_pos h2, if_pos (by push_cast; omega)]
      · rw [if_neg h2, if_neg (by push_cast; omega)]

theorem shift_down_loop_apply (lo : Int) (fuel : Nat) :
    ∀ (lines : Int → List Nat) (i : Int), i - lo ≤ fuel → ∀ j : Int,
      shift_down_loop lo fuel lines i j = if lo < j ∧ j ≤ i then lines (j - 1) else lines j := by
  induction fuel with
  | zero =>
    intro lines i h j
    simp only [shift_down_loop]
    rw [if_neg]
    push_cast at h
    omega
  | succ f ih =>
    intro lines i h j
    simp only [shift_down_loop]
    by_cases hgo : i > lo
    · rw [if_pos hgo, ih _ (i - 1) (by push_cast at h; omega) j]
      by_cases h1 : lo < j ∧ j ≤ i - 1
      · rw [if_pos h1, if_pos (by omega), Function.update_apply, if_neg (by omega)]
      · rw [if_neg h1, Function.update_apply]
        by_cases h2 : j = i
        · rw [if_pos h2, if_pos (by omega), h2]
        · rw [if_neg h2, if_neg (by omega)]
    · rw [if_neg hgo, if_neg (by omega)]

theorem shift_up_loop_apply (hi : Int) (fuel : Nat) :
    ∀ (lines : Int → List Nat) (i : Int), hi - i ≤ fuel → ∀ j : Int,
      shift_up_loop hi fuel lines i j = if i ≤ j ∧ j < hi then lines (j + 1) else lines j := by
  induction fuel with
  | zero =>
    intro lines i h j
    simp only [shift_up_loop]
    rw [if_neg]
    push_cast at h
    omega
  | succ f ih =>
    intro lines i h j
    simp only [shift_up_loop]
    by_cases hgo : i < hi
    · rw [if_pos hgo, ih _ (i + 1) (by push_cast at h; omega) j]
      by_cases h1 : i + 1 ≤ j ∧ j < hi
      · rw [if_pos h1, if_pos (by omega), Function.update_apply, if_neg (by omega)]
      · rw [if_neg h1, Function.update_apply]
        by_cases h2 : j = i
        · rw [if_pos h2, if_pos (by omega), h2]
        · rw [if_neg h2, if_neg (by omega)]
    · rw [if_neg hgo, if_neg (by omega)]

/-! ## Undo ring facts -/

theorem tmod_undo_stack {a : Int} (h : 0 ≤ a) : a.tmod UNDO_STACK = a % 100 := by
  unfold UNDO_STACK
  exact Int.tmod_eq_emod h (by decide)

theorem undo_save_top (s : Editor) (h0 : 0 ≤ s.undo_top) :
    (undo_save s).undo_top = (s.undo_top + 1) % 100 := by
  simp only [undo_save]
  exact tmod_undo_stack (by omega)

theorem undo_save_cur (s : Editor) (h0 : 0 ≤ s.undo_top) (hc : 0 ≤ s.undo_cur) :
    (undo_save s).undo_cur =
      if (s.undo_top + 1) % 100 = s.undo_cur then (s.undo_cur + 1) % 100 else s.undo_cur := by
  simp only [undo_save]
  rw [tmod_undo_stack (show 0 ≤ s.undo_top + 1 by omega),
    tmod_undo_stack (show 0 ≤ s.undo_cur + 1 by omega)]

theorem undo_save_top_ne_cur (s : Editor) (h0 : 0 ≤ s.undo_top) :
    (undo_save s).undo_top ≠ (undo_save s).undo_cur := by
  simp only [undo_save]
  rw [tmod_undo_stack (show 0 ≤ s.undo_top + 1 by omega)]
  by_cases h : (s.undo_top + 1) % 100 = s.undo_cur
  · rw [if_pos h, tmod_undo_stack (show 0 ≤ s.undo_cur + 1 by omega)]
    omega
  · rw [if_neg h]
    exact h

theorem undo_save_live (s : Editor) : live (undo_save s) = live s := rfl

theorem undo_save_slot (s : Editor) :
    SnapOf ((undo_save s).undo_stack s.undo_top) (live s) := by
  simp only [undo_save, Function.update_same, SnapOf, live, true_and]
  intro i h0 hlt
  rw [copy_lines_apply, if_pos]
  exact ⟨h0, by omega⟩

theorem undo_save_other_slot (s : Editor) (j : Int) (hj : j ≠ s.undo_top) :
    (undo_save s).undo_stack j = s.undo_stack j := by
  simp only [undo_save]
  exact Function.update_noteq hj _ _

/-- An effective `undo_restore` loads the slot below `undo_top`. -/
theorem undo_restore_loads (e : Editor) (h0 : 0 ≤ e.undo_top) (h1 : e.undo_top < 100)
    (hne : e.undo_top ≠ e.undo_cur) (d : UndoState)
    (hd : SnapOf (e.undo_stack ((e.undo_top + 99) % 100)) d) :
    SnapOf (live (undo_restore e)) d ∧ (undo_restore e).undo_top = (e.undo_top + 99) % 100 ∧
      (undo_restore e).undo_cur = e.undo_cur ∧ (undo_restore e).undo_stack = e.undo_stack := by
  have htop : (e.undo_top - 1 + UNDO_STACK).tmod UNDO_STACK = (e.undo_top + 99) % 100 := by
    rw [tmod_undo_stack (by unfold UNDO_STACK; omega)]
    unfold UNDO_STACK
    congr 1
    omega
  simp only [undo_restore, if_neg hne, htop, live]
  refine ⟨?_, trivial, trivial, trivial⟩
  obtain ⟨hlc, hcx, hcy, hl⟩ := hd
  refine ⟨hlc, hcx, hcy, ?_⟩
  intro i hi0 hilt
  dsimp only
  rw [copy_lines_apply, if_pos ⟨hi0, by omega⟩]
  exact hl i hi0 hilt

theorem snapOf_refl (d : UndoState) : SnapOf d d :=
  ⟨rfl, rfl, rfl, fun _ _ _ => rfl⟩

theorem undo_restore_noop (e : Editor) (h : e.undo_top = e.undo_cur) : undo_restore e = e := by
  simp only [undo_restore, if_pos h]

theorem save_all_append (ds : List UndoState) (d : UndoState) :
    ∀ s : Editor, save_all (ds ++ [d]) s = undo_save (set_doc d (save_all ds s)) := by
  induction ds with
  | nil => intro s; rfl
  | cons a ds ih =>
    intro s
    rw [List.cons_append, save_all, save_all, ih]

/-- Content of the ring after consecutive saves: the pointer has advanced by the
number of saves, and each of the last 100 saved documents sits in its slot. -/
theorem save_all_ring (ds : List UndoState) :
    ∀ s : Editor, 0 ≤ s.undo_top → s.undo_top < 100 →
      (save_all ds s).undo_top = (s.undo_top + ds.length) % 100 ∧
      ∀ (k : Nat) (d : UndoState), ds.length ≤ k + 100 → ds[k]? = some d →
        SnapOf ((save_all ds s).undo_stack ((s.undo_top + k) % 100)) d := by
  induction ds using List.reverseRecOn with
  | nil =>
    intro s h0 h1
    refine ⟨by simp only [save_all, List.length_nil]; push_cast; omega, ?_⟩
    intro k d _ hk
    simp at hk
  | append_singleton ds a ih =>
    intro s h0 h1
    obtain ⟨htop, hslots⟩ := ih s h0 h1
    rw [save_all_append]
    have htop2 : (set_doc a (save_all ds s)).undo_top = (s.undo_top + ds.length) % 100 := htop
    constructor
    · rw [undo_save_top _ (by rw [htop2]; omega), htop2, List.length_append]
      simp only [List.length_singleton]
      push_cast
      omega
    · intro k d hlen hk
      simp only [List.length_append, List.length_singleton] at hlen
      by_cases hkl : k < ds.length
      · rw [List.getElem?_append_left hkl] at hk
        rw [undo_save_other_slot _ _ (by rw [htop2]; omega)]
        exact hslots k d (by omega) hk
      · have hklen : k = ds.length := by
          by_contra hne
          have : (ds ++ [a])[k]? = none := by
            apply List.getElem?_eq_none
            simp only [List.length_append, List.length_singleton]
            omega
          rw [this] at hk
          exact absurd hk (by simp)
        subst hklen
        rw [List.getElem?_append_right (le_refl _)] at hk
        simp at hk
        subst hk
        have := undo_save_slot (set_doc a (save_all ds s))
        rw [htop2] at this
        exact this

/-- After consecutive saves the text and cursor are those of the last document. -/
theorem save_all_live (ds : List UndoState) (a : UndoState) (s : Editor) :
    live (save_all (ds ++ [a]) s) = a := by
  rw [save_all_append]
  rfl

/-- Whatever number of `undo_restore` calls is made, text and cursor are either
untouched or loaded from one slot of the ring. -/
theorem restore_n_reads (n : Nat) :
    ∀ e : Editor, 0 ≤ e.undo_top → e.undo_top < 100 →
      live (restore_n n e) = live e ∨
      ∃ j : Int, 0 ≤ j ∧ j < 100 ∧
        ∀ d, SnapOf (e.undo_stack j) d → SnapOf (live (restore_n n e)) d := by
  induction n with
  | zero => intro e _ _; exact Or.inl rfl
  | succ n ih =>
    intro e h0 h1
    simp only [restore_n]
    by_cases hne : e.undo_top = e.undo_cur
    · rw [undo_restore_noop e hne]
      exact ih e h0 h1
    · have hload := fun d hd => undo_restore_loads e h0 h1 hne d hd
      have htop : (undo_restore e).undo_top = (e.undo_top + 99) % 100 :=
        (hload _ (snapOf_refl _)).2.1
      have hstack : (undo_restore e).undo_stack = e.undo_stack :=
        (hload _ (snapOf_refl _)).2.2.2
      rcases ih (undo_restore e) (by rw [htop]; omega) (by rw [htop]; omega) with h | h
      · right
        refine ⟨(e.undo_top + 99) % 100, by omega, by omega, ?_⟩
        intro d hd
        rw [h]
        exact (hload d hd).1
      · obtain ⟨j, hj0, hj1, hj⟩ := h
        right
        refine ⟨j, hj0, hj1, ?_⟩
        intro d hd
        exact hj d (by rw [hstack]; exact hd)

/-- The ring pointers stay inside the ring under every ring operation. -/
theorem run_ops_pointers (ops : List RingOp) :
    ∀ s : Editor, (0 ≤ s.undo_top ∧ s.undo_top < 100) ∧ (0 ≤ s.undo_cur ∧ s.undo_cur < 100) →
      (0 ≤ (run_ops ops s).undo_top ∧ (run_ops ops s).undo_top < 100) ∧
      (0 ≤ (run_ops ops s).undo_cur ∧ (run_ops ops s).undo_cur < 100) := by
  induction ops with
  | nil => intro s h; exact h
  | cons op ops ih =>
    intro s h
    obtain ⟨⟨ht0, ht1⟩, ⟨hc0, hc1⟩⟩ := h
    simp only [run_ops]
    apply ih
    cases op with
    | save =>
      simp only [run_op]
      rw [undo_save_top s ht0, undo_save_cur s ht0 hc0]
      refine ⟨by omega, ?_⟩
      split_ifs <;> omega
    | restore =>
      simp only [run_op]
      by_cases hne : s.undo_top = s.undo_cur
      · rw [undo_restore_noop s hne]
        exact ⟨⟨ht0, ht1⟩, ⟨hc0, hc1⟩⟩
      · have := undo_restore_loads s ht0 ht1 hne _ (snapOf_refl _)
        rw [this.2.1, this.2.2.1]
        exact ⟨by omega, hc0, hc1⟩
    | edit d => exact ⟨⟨ht0, ht1⟩, ⟨hc0, hc1⟩⟩

/-! ## Insert-mode facts -/

theorem doc_getElem (s : Editor) (k : Nat) :
    (doc s)[k]? = if (k : Int) < s.line_count then some (s.lines (k : Int)) else none := by
  unfold doc
  rw [List.getElem?_map]
  by_cases h : (k : Int) < s.line_count
  · rw [if_pos h, List.getElem?_range (by omega)]
    rfl
  · rw [if_neg h, List.getElem?_eq_none (by rw [List.length_range]; omega)]
    rfl

theorem doc_length (s : Editor) : (doc s).length = s.line_count.toNat := by
  unfold doc
  simp

/-- Lines after Enter below the capacity limit, index by index. -/
theorem insert_enter_lines (stale : List Nat) (s : Editor) (hlt : s.line_count < MAX_LINES - 1)
    (j : Int) :
    (insert_enter stale s).lines j =
      if j = s.cy then (s.lines s.cy).take (vis2real (s.lines s.cy) s.cx)
      else if j = s.cy + 1 then
        (if vis2real (s.lines s.cy) s.cx ≤ (s.lines s.cy).length then
          (s.lines s.cy).drop (vis2real (s.lines s.cy) s.cx)
         else stale)
      else if s.cy + 1 < j ∧ j ≤ s.line_count then s.lines (j - 1)
      else s.lines j := by
  have hfuel : s.line_count - (s.cy + 1) ≤ ((s.line_count - (s.cy + 1)).toNat : Int) :=
    Int.self_le_toNat _
  have hsh := shift_down_loop_apply (s.cy + 1) _ s.lines s.line_count hfuel
  simp only [insert_enter, if_pos hlt, undo_save]
  have hcy : shift_down_loop (s.cy + 1) (s.line_count - (s.cy + 1)).toNat s.lines s.line_count s.cy
      = s.lines s.cy := by
    rw [hsh, if_neg (by omega)]
  rw [hcy]
  by_cases h1 : j = s.cy
  · subst h1
    rw [if_pos rfl, Function.update_same, Function.update_noteq (by omega), hcy]
  · rw [if_neg h1, Function.update_noteq h1]
    by_cases h2 : j = s.cy + 1
    · rw [if_pos h2, h2, Function.update_same]
    · rw [if_neg h2, Function.update_noteq h2, hsh]

theorem insert_dispatch_enter (wc2mb : List Int → List Nat) (con : Console) (key next : Int)
    (stale : List Nat) (s : Editor) (hkey : key = 13 ∨ key = 10) :
    insert_dispatch wc2mb con key next stale s = insert_enter stale s := by
  unfold insert_dispatch
  rw [if_neg (by omega), if_pos hkey]

end Oneditor

namespace Oneditor

/-! ## Claims about single lines -/

/-- C2: for a NUL-free line and a character-start offset `o` within the line, the
visual column that the loop of `draw` computes for `o` is mapped back to `o` by
`vis2real`. -/
theorem vis2real_display_x_round_trip (s : List Nat) (o : Nat) (hs : NulFree s)
    (ho : CharStart s o) (hle : o ≤ s.length) :
    vis2real s (display_x s 0 o) = o :=
  vis2real_at_char_start hs ho hle

/-- Witness of C2 on the line "中a" at the offset after the wide character. -/
theorem vis2real_display_x_round_trip_witness :
    vis2real [228, 184, 173, 97] (display_x [228, 184, 173, 97] 0 3) = 3 :=
  vis2real_display_x_round_trip [228, 184, 173, 97] 3 (by unfold NulFree; decide)
    (CharStart.step CharStart.zero (by decide)) (by decide)

/-- C3, as stated, fails: inserting "X" at visual column 1 of the empty line and
then deleting at column 1 leaves "X", because column 1 lies past the end of the
line both times; and on the line "中", where column 1 falls inside the wide
character, inserting "X" at column 1 and deleting at column 1 leaves "X". -/
theorem insvis_delvis_counterexample :
    ((0 : Int) ≤ 1 ∧ IsChar [88]) ∧
      (insvis [] 1 [88] 1 = some [88] ∧ delvis [88] 1 ≠ []) ∧
      (insvis [228, 184, 173] 1 [88] 1 = some [88, 228, 184, 173] ∧
        delvis [88, 228, 184, 173] 1 ≠ [228, 184, 173]) := by
  refine ⟨⟨by decide, ⟨by decide, by decide, by unfold NulFree; decide⟩⟩,
    ⟨by decide, by decide⟩, ⟨by decide, by decide⟩⟩

/-- C3, amended: on a NUL-free line, at the visual column of a character start
`o` within the line, inserting one complete character that fits under the
capacity guard succeeds, and deleting at the same column of the line it
produced gives back the line. -/
theorem delvis_insvis_at_char_start (s ins : List Nat) (o : Nat) (hs : NulFree s)
    (ho : CharStart s o) (hle : o ≤ s.length) (hins : IsChar ins)
    (hcap : (s.length : Int) + (ins.length : Int) < MAX_COLS - 1) :
    ∃ l, insvis s (display_x s 0 o) ins ins.length = some l ∧
      delvis l (display_x s 0 o) = s := by
  obtain ⟨cs, hcs, hsplit, hlen, hdx⟩ := charStart_split hs ho hle
  have hpos : vis2real s (display_x s 0 o) = o := vis2real_at_char_start hs ho hle
  have hins1 : insvis s (display_x s 0 o) ins ins.length
      = some (concat_chars cs ++ (ins ++ s.drop o)) := by
    unfold insvis
    simp only [hpos]
    rw [if_neg (by omega), if_pos hle, List.take_length, List.append_assoc]
    congr 2
    have := congrArg (List.take o) hsplit
    rw [← hlen, List.take_left, hlen] at this
    exact this
  refine ⟨_, hins1, ?_⟩
  rw [hdx]
  have hpos2 : vis2real (concat_chars cs ++ (ins ++ s.drop o)) (chars_width cs)
      = (concat_chars cs).length := vis2real_chars_prefix cs _ hcs
  unfold delvis
  simp only [hpos2]
  rw [getD_at_char _ ins _ hins.1, if_neg (isChar_head_ne_zero hins), ← hins.2.1,
    take_drop_around, ← hsplit]

/-- Witness of the amended C3: "ab", column 1, character "X". -/
theorem delvis_insvis_at_char_start_witness :
    ∃ l, insvis [97, 98] (display_x [97, 98] 0 1) [88] 1 = some l ∧
      delvis l (display_x [97, 98] 0 1) = [97, 98] :=
  delvis_insvis_at_char_start [97, 98] [88] 1 (by unfold NulFree; decide)
    (CharStart.step CharStart.zero (by decide)) (by decide)
    ⟨by decide, by decide, by unfold NulFree; decide⟩ (by decide)

/-- C8: on a line of complete characters and for a column `V ≥ 0`, `delvis`
leaves the line alone when `V` is at or past the visual width; otherwise it
removes exactly the bytes of the character that starts at `vis2real(line, V)`:
the offset is a character start, the character lies inside the line, the bytes
before and after it are kept in order, the byte length drops by `utf8_len` and
the visual width by `char_width` of that character. -/
theorem delvis_spec (s : List Nat) (V : Int) (hs : Complete s) (hV : 0 ≤ V) :
    (str_vis_width s ≤ V → delvis s V = s) ∧
    (V < str_vis_width s →
      CharStart s (vis2real s V) ∧
      vis2real s V + utf8_len (s.getD (vis2real s V) 0) ≤ s.length ∧
      delvis s V = s.take (vis2real s V) ++
        s.drop (vis2real s V + utf8_len (s.getD (vis2real s V) 0)) ∧
      ((delvis s V).length : Int) = s.length - utf8_len (s.getD (vis2real s V) 0) ∧
      str_vis_width (delvis s V) = str_vis_width s - char_width s (vis2real s V)) := by
  obtain ⟨cs, hcs, hcat⟩ := complete_chars hs
  subst hcat
  have hw := str_vis_width_chars cs hcs
  have hv2r : vis2real (concat_chars cs) V = chars_stop V cs 0 := by
    unfold vis2real
    have := vis2real_loop_chars cs [] [] V (concat_chars cs).length 0 hcs
      (length_le_concat_chars cs hcs) (Or.inl rfl)
    simpa using this
  obtain ⟨hfull, hpart⟩ := chars_stop_cases V cs 0 hV
  rw [hw, hv2r]
  constructor
  · intro h
    unfold delvis
    simp only [hv2r]
    rw [hfull (by omega)]
    simp
  · intro h
    obtain ⟨cs1, c, cs2, he, hstop⟩ := hpart (by omega)
    subst he
    have hc : IsChar c := hcs c (by simp)
    have hcs1 : ∀ d ∈ cs1, IsChar d := fun d hd => hcs d (by simp [hd])
    have hcs2 : ∀ d ∈ cs2, IsChar d := fun d hd => hcs d (by simp [hd])
    have hs2 : concat_chars (cs1 ++ c :: cs2)
        = concat_chars cs1 ++ (c ++ concat_chars cs2) := by
      rw [concat_chars_append]; rfl
    have hget : (concat_chars (cs1 ++ c :: cs2)).getD (concat_chars cs1).length 0
        = c.headD 0 := by
      rw [hs2]; exact getD_at_char _ c _ hc.1
    have hdel : delvis (concat_chars (cs1 ++ c :: cs2)) V
        = concat_chars cs1 ++ concat_chars cs2 := by
      unfold delvis
      simp only [hv2r, hstop]
      rw [hget, if_neg (isChar_head_ne_zero hc), ← hc.2.1, hs2, take_drop_around]
    rw [hstop, hget, ← hc.2.1]
    refine ⟨?_, ?_, ?_, ?_, ?_⟩
    · have := charStart_after_chars cs1 [] (c ++ concat_chars cs2) hcs1
        (by simpa using CharStart.zero)
      simpa [hs2] using this
    · rw [hs2]; simp only [List.length_append]; omega
    · rw [hdel, hs2, take_drop_around]
    · rw [hdel, hs2]; simp only [List.length_append]; push_cast; omega
    · have hw12 : str_vis_width (concat_chars cs1 ++ concat_chars cs2)
          = chars_width cs1 + chars_width cs2 := by
        rw [← concat_chars_append, str_vis_width_chars _ (by
          intro d hd
          rcases List.mem_append.mp hd with h | h
          · exact hcs1 d h
          · exact hcs2 d h), chars_width_append]
      rw [hdel, hw12, chars_width_append, hs2, char_width_at_char _ c _ hc.1]
      simp only [chars_width]
      omega

/-- Witness of C8 on the line "a中b" at column 1, the wide character. -/
theorem delvis_spec_witness :
    delvis [97, 228, 184, 173, 98] 1 = [97, 98] ∧
    str_vis_width (delvis [97, 228, 184, 173, 98] 1) = str_vis_width [97, 228, 184, 173, 98] - 2 := by
  have h1 : CharStart [97, 228, 184, 173, 98] 1 := CharStart.step CharStart.zero (by decide)
  have h4 : CharStart [97, 228, 184, 173, 98] 4 := CharStart.step h1 (by decide)
  have h5 : CharStart [97, 228, 184, 173, 98] 5 := CharStart.step h4 (by decide)
  have hc : Complete [97, 228, 184, 173, 98] := ⟨by unfold NulFree; decide, h5⟩
  have h := (delvis_spec [97, 228, 184, 173, 98] 1 hc (by decide)).2 (by decide)
  exact ⟨by decide, h.2.2.2.2⟩

/-! ## Claims about the undo ring -/

/-- C4: with the ring pointer `undo_top` inside the ring, after `undo_save` and
any later change of text and cursor that leaves the ring alone (the state `e`),
one `undo_restore` sets `line_count`, `cx`, `cy` and the lines below
`line_count` back to their values at the time of the save. -/
theorem undo_restore_after_undo_save (s e : Editor)
    (htop : 0 ≤ s.undo_top ∧ s.undo_top < UNDO_STACK)
    (hstack : e.undo_stack = (undo_save s).undo_stack)
    (hetop : e.undo_top = (undo_save s).undo_top)
    (hecur : e.undo_cur = (undo_save s).undo_cur) :
    (undo_restore e).line_count = s.line_count ∧ (undo_restore e).cx = s.cx ∧
      (undo_restore e).cy = s.cy ∧
      ∀ i : Int, 0 ≤ i → i < s.line_count → (undo_restore e).lines i = s.lines i := by
  obtain ⟨h0, h1⟩ := htop
  unfold UNDO_STACK at h1
  have ht := undo_save_top s h0
  have hne : e.undo_top ≠ e.undo_cur := by
    rw [hetop, hecur]; exact undo_save_top_ne_cur s h0
  have hback : (e.undo_top + 99) % 100 = s.undo_top := by
    rw [hetop, ht]; omega
  have hsnap : SnapOf (e.undo_stack ((e.undo_top + 99) % 100)) (live s) := by
    rw [hback, hstack]; exact undo_save_slot s
  have := (undo_restore_loads e (by rw [hetop, ht]; omega) (by rw [hetop, ht]; omega)
    hne (live s) hsnap).1
  exact this

/-- Witness of C4: save `["abc","def"]`, wipe text and cursor, restore. -/
theorem undo_restore_after_undo_save_witness :
    (undo_restore (set_doc {} (undo_save sample_abc_def))).line_count = 2 ∧
      (undo_restore (set_doc {} (undo_save sample_abc_def))).lines 1 = [100, 101, 102] := by
  have h := undo_restore_after_undo_save sample_abc_def (set_doc {} (undo_save sample_abc_def))
    ⟨by decide, by decide⟩ rfl rfl rfl
  exact ⟨h.1, h.2.2.2 1 (by decide) (by decide)⟩

/-- C6: under every sequence of `undo_save`, `undo_restore` and snapshot-free
edits from the initial ring, the count `(undo_top - undo_cur) mod UNDO_STACK`
is at most `UNDO_STACK` and both pointers stay in `[0, UNDO_STACK)`; and after
`UNDO_STACK+1` consecutive saves of the documents `ds[0], …, ds[100]`, whatever
number of `undo_restore` calls follows, text and cursor are those of one of the
later documents `ds[1], …, ds[100]`, never loaded from the first save. -/
theorem undo_ring_bound :
    (∀ (ops : List RingOp) (s : Editor), s.undo_top = 0 → s.undo_cur = 0 →
      ((run_ops ops s).undo_top - (run_ops ops s).undo_cur) % UNDO_STACK ≤ UNDO_STACK ∧
      (0 ≤ (run_ops ops s).undo_top ∧ (run_ops ops s).undo_top < UNDO_STACK) ∧
      (0 ≤ (run_ops ops s).undo_cur ∧ (run_ops ops s).undo_cur < UNDO_STACK)) ∧
    (∀ (ds : List UndoState) (s : Editor) (n : Nat), (ds.length : Int) = UNDO_STACK + 1 →
      0 ≤ s.undo_top → s.undo_top < UNDO_STACK →
      ∃ (k : Nat) (d : UndoState), 1 ≤ k ∧ ds[k]? = some d ∧
        SnapOf (live (restore_n n (save_all ds s))) d) := by
  unfold UNDO_STACK
  constructor
  · intro ops s ht hc
    have := run_ops_pointers ops s ⟨by omega, by omega⟩
    exact ⟨by omega, this⟩
  · intro ds s n hlen h0 h1
    have hlen2 : ds.length = 101 := by omega
    obtain ⟨htop, hslots⟩ := save_all_ring ds s h0 h1
    have hget : ∀ k : Nat, k < 101 → ∃ d, ds[k]? = some d := by
      intro k hk
      exact ⟨ds[k], List.getElem?_eq_getElem (by omega)⟩
    rcases restore_n_reads n (save_all ds s) (by rw [htop]; omega) (by rw [htop]; omega)
      with h | h
    · obtain ⟨d, hd⟩ := hget 100 (by omega)
      refine ⟨100, d, by omega, hd, ?_⟩
      rw [h]
      have hsplit : ds = ds.dropLast ++ [d] := by
        have h1 := List.dropLast_append_getLast? d (by
          rw [List.getLast?_eq_getElem?, hlen2]; exact hd)
        exact h1.symm
      rw [hsplit, save_all_live]
      exact snapOf_refl d
    · obtain ⟨j, hj0, hj1, hj⟩ := h
      let m : Int := (j - s.undo_top) % 100
      have hm0 : 0 ≤ m := by simp only [m]; omega
      have hm1 : m < 100 := by simp only [m]; omega
      have hmj : (s.undo_top + m) % 100 = j := by simp only [m]; omega
      by_cases hz : m = 0
      · obtain ⟨d, hd⟩ := hget 100 (by omega)
        refine ⟨100, d, by omega, hd, hj d ?_⟩
        have := hslots 100 d (by omega) hd
        rw [show (s.undo_top + ((100 : Nat) : Int)) % 100 = j by push_cast; omega] at this
        exact this
      · obtain ⟨d, hd⟩ := hget m.toNat (by omega)
        refine ⟨m.toNat, d, by omega, hd, hj d ?_⟩
        have := hslots m.toNat d (by omega) hd
        rw [show (s.undo_top + ((m.toNat : Nat) : Int)) % 100 = j by
          rw [Int.toNat_of_nonneg hm0]; exact hmj] at this
        exact this

/-- Witness of C6: a short run of ring operations, and three restores after the
101 saves of `sample_docs`. -/
theorem undo_ring_bound_witness :
    ((run_ops [RingOp.save, RingOp.save, RingOp.restore] {}).undo_top -
        (run_ops [RingOp.save, RingOp.save, RingOp.restore] {}).undo_cur) % UNDO_STACK
      ≤ UNDO_STACK ∧
    ∃ (k : Nat) (d : UndoState), 1 ≤ k ∧ sample_docs[k]? = some d ∧
      SnapOf (live (restore_n 3 (save_all sample_docs {}))) d :=
  ⟨(undo_ring_bound.1 [RingOp.save, RingOp.save, RingOp.restore] {} rfl rfl).1,
    undo_ring_bound.2 sample_docs {} 3 (by decide) (by decide)
      (by decide)⟩

/-! ## Claims about Insert mode -/

/-- Enter in Insert mode with `0 ≤ cy < line_count`.  Below the line capacity
the document becomes `lines[0..cy) ++ [line[0..p), tail] ++ lines[cy+1..line_count)`
with `p = vis2real(lines[cy], cx)`, where `tail` is `line[p..)` when `p` lies
within the line and the string `stale` found behind the terminator otherwise;
`line_count` grows by one and the cursor goes to `(0, cy+1)`.  At capacity the
whole state, undo ring included, is unchanged. -/
theorem insert_enter_doc (wc2mb : List Int → List Nat) (con : Console) (key next : Int)
    (stale : List Nat) (s : Editor) (hkey : key = 13 ∨ key = 10) (hcy0 : 0 ≤ s.cy)
    (hcy1 : s.cy < s.line_count) :
    (s.line_count < MAX_LINES - 1 →
      doc (insert_dispatch wc2mb con key next stale s) =
          (doc s).take s.cy.toNat ++
            [(s.lines s.cy).take (vis2real (s.lines s.cy) s.cx),
             (if vis2real (s.lines s.cy) s.cx ≤ (s.lines s.cy).length then
               (s.lines s.cy).drop (vis2real (s.lines s.cy) s.cx)
              else stale)] ++
            (doc s).drop (s.cy.toNat + 1) ∧
        (insert_dispatch wc2mb con key next stale s).line_count = s.line_count + 1 ∧
        (insert_dispatch wc2mb con key next stale s).cx = 0 ∧
        (insert_dispatch wc2mb con key next stale s).cy = s.cy + 1) ∧
    (s.line_count ≥ MAX_LINES - 1 → insert_dispatch wc2mb con key next stale s = s) := by
  rw [insert_dispatch_enter wc2mb con key next stale s hkey]
  constructor
  · intro hlt
    have hlc : (insert_enter stale s).line_count = s.line_count + 1 := by
      simp only [insert_enter, if_pos hlt, undo_save]
    refine ⟨?_, hlc, by simp only [insert_enter, if_pos hlt, undo_save],
      by simp only [insert_enter, if_pos hlt, undo_save]⟩
    apply List.ext_getElem?
    intro k
    rw [doc_getElem, hlc, insert_enter_lines stale s hlt]
    have hdl := doc_length s
    have hc : (s.cy.toNat : Int) = s.cy := Int.toNat_of_nonneg hcy0
    have htl : ((doc s).take s.cy.toNat).length = s.cy.toNat := by
      rw [List.length_take, hdl]; omega
    by_cases h1 : k < s.cy.toNat
    · rw [List.append_assoc, List.getElem?_append_left (by rw [htl]; exact h1),
        List.getElem?_take_of_lt h1, doc_getElem,
        if_pos (show (k : Int) < s.line_count by omega),
        if_pos (show (k : Int) < s.line_count + 1 by omega),
        if_neg (show ¬ (k : Int) = s.cy by omega),
        if_neg (show ¬ (k : Int) = s.cy + 1 by omega),
        if_neg (show ¬ (s.cy + 1 < (k : Int) ∧ (k : Int) ≤ s.line_count) by omega)]
    · rw [List.append_assoc, List.getElem?_append_right (by rw [htl]; omega), htl]
      by_cases h2 : k = s.cy.toNat
      · rw [h2, if_pos (show (s.cy.toNat : Int) < s.line_count + 1 by omega),
          if_pos hc, Nat.sub_self]
        rfl
      · by_cases h3 : k = s.cy.toNat + 1
        · rw [h3, if_pos (show ((s.cy.toNat + 1 : Nat) : Int) < s.line_count + 1 by
              push_cast; omega),
            if_neg (show ¬ ((s.cy.toNat + 1 : Nat) : Int) = s.cy by push_cast; omega),
            if_pos (show ((s.cy.toNat + 1 : Nat) : Int) = s.cy + 1 by push_cast; omega),
            show s.cy.toNat + 1 - s.cy.toNat = 1 by omega]
          simp
        · obtain ⟨m, hm⟩ : ∃ m, k = s.cy.toNat + 2 + m := ⟨k - (s.cy.toNat + 2), by omega⟩
          subst hm
          rw [show s.cy.toNat + 2 + m - s.cy.toNat = m + 2 by omega,
            if_neg (show ¬ ((s.cy.toNat + 2 + m : Nat) : Int) = s.cy by push_cast; omega),
            if_neg (show ¬ ((s.cy.toNat + 2 + m : Nat) : Int) = s.cy + 1 by push_cast; omega)]
          rw [show ∀ (a b : List Nat) (l : List (List Nat)), ([a, b] ++ l)[m + 2]? = l[m]? from
            fun a b l => by simp, List.getElem?_drop, doc_getElem]
          by_cases h4 : ((s.cy.toNat + 2 + m : Nat) : Int) < s.line_count + 1
          · rw [if_pos h4,
              if_pos (show s.cy + 1 < ((s.cy.toNat + 2 + m : Nat) : Int) ∧
                ((s.cy.toNat + 2 + m : Nat) : Int) ≤ s.line_count by
                  constructor
                  · push_cast; omega
                  · omega),
              if_pos (show ((s.cy.toNat + 1 + m : Nat) : Int) < s.line_count by
                push_cast at h4 ⊢; omega)]
            congr 2
            push_cast
            omega
          · rw [if_neg h4, if_neg (show ¬ ((s.cy.toNat + 1 + m : Nat) : Int) < s.line_count by
              push_cast at h4 ⊢; omega)]
  · intro hge
    simp only [insert_enter, if_neg (show ¬ s.line_count < MAX_LINES - 1 by omega)]

/-- Enter at the start of `["abc","def"]`. -/
theorem insert_enter_doc_sample :
    doc (insert_dispatch sample_wc2mb sample_console 13 0 [] sample_abc_def)
      = [[], [97, 98, 99], [100, 101, 102]] := by
  have h := (insert_enter_doc sample_wc2mb sample_console 13 0 [] sample_abc_def
    (Or.inl rfl) (by decide) (by decide)).1 (by decide)
  rw [h.1]
  decide

/-! ## Places where the program departs from the claims -/

/-- C9 (defect in the program): in the document `["hello", [0xC3]]`, whose
second line ends inside a two-byte character, the keys `d d l` leave the one-line
document `[[0xC3]]` with the cursor at column 1; `dd` has copied the two bytes
`C3 00` over the buffer of `"hello"`, which now holds `C3 00 'l' 'l' 'o' 00`.
After `i`, Enter splits at `p = vis2real(lines[0], 1) = 2`, behind the
terminator at offset 1, and `strcpy` copies the stale string `"llo"` into the new
line: the document becomes `[[0xC3], "llo"]`, not `[line[0..p), line[p..)]`,
whose second line is empty. -/
theorem enter_copies_bytes_behind_terminator :
    (doc (norm_keys sample_console (sample_io []) [100, 100, 108] sample_hello_cut) = [[195]] ∧
      (norm_keys sample_console (sample_io []) [100, 100, 108] sample_hello_cut).cx = 1 ∧
      (norm_keys sample_console (sample_io []) [100, 100, 108] sample_hello_cut).cy = 0) ∧
    (vis2real [195] 1 = 2 ∧ ([195] : List Nat).length = 1) ∧
    doc (insert_dispatch sample_wc2mb sample_console 13 0 [108, 108, 111]
        (norm_keys sample_console (sample_io []) [100, 100, 108, 105] sample_hello_cut))
      = [[195], [108, 108, 111]] ∧
    [[195], [108, 108, 111]] ≠ [([195] : List Nat).take 2, ([195] : List Nat).drop 2] := by
  refine ⟨⟨by decide, by decide, by decide⟩, ⟨by decide, by decide⟩, by decide, by decide⟩

/-- C1 (defect in the program): typing `中` into the initial empty document
gives the line `"中"` with the cursor at column 2, a state in which the cursor
invariant holds; Backspace then deletes the two-column character and lowers
`cx` by one only, leaving `cx = 1` on an empty line.  Likewise `x` with the
cursor at column 1, inside the wide character, empties the line and leaves
`cx = 1`. -/
theorem backspace_wide_char_breaks_cursor_invariant :
    ((insert_dispatch sample_wc2mb sample_console 0x4E2D 0 [] {}).lines 0 = sample_wide.lines 0 ∧
      (insert_dispatch sample_wc2mb sample_console 0x4E2D 0 [] {}).cx = sample_wide.cx ∧
      (insert_dispatch sample_wc2mb sample_console 0x4E2D 0 [] {}).cy = sample_wide.cy ∧
      (insert_dispatch sample_wc2mb sample_console 0x4E2D 0 [] {}).line_count
        = sample_wide.line_count) ∧
    (NulFree (sample_wide.lines sample_wide.cy) ∧ CharStart (sample_wide.lines sample_wide.cy) 3) ∧
    (0 ≤ sample_wide.cy ∧ sample_wide.cy < sample_wide.line_count) ∧
    (0 ≤ sample_wide.cx ∧ sample_wide.cx ≤ str_vis_width (sample_wide.lines sample_wide.cy)) ∧
    (insert_dispatch sample_wc2mb sample_console 8 0 [] sample_wide).cx = 1 ∧
    str_vis_width ((insert_dispatch sample_wc2mb sample_console 8 0 [] sample_wide).lines
      (insert_dispatch sample_wc2mb sample_console 8 0 [] sample_wide).cy) = 0 ∧
    (norm_del_char { sample_wide with cx := 1 }).cx = 1 ∧
    str_vis_width ((norm_del_char { sample_wide with cx := 1 }).lines
      (norm_del_char { sample_wide with cx := 1 }).cy) = 0 := by
  refine ⟨⟨by decide, by decide, by decide, by decide⟩,
    ⟨by unfold NulFree; decide, CharStart.step CharStart.zero (by decide)⟩,
    ⟨by decide, by decide⟩, ⟨by decide, by decide⟩, by decide, by decide, by decide, by decide⟩

/-- C5 (defect in the program): the Normal-mode handlers take no snapshot.  On
`["abc","def"]` with an empty undo ring, `x` then `u` leaves line 0 as `"bc"`,
`dd` then `u` leaves one line, and `oo` then `u` leaves three lines. -/
theorem normal_mode_edits_not_undone :
    sample_abc_def.lines 0 = [97, 98, 99] ∧ sample_abc_def.line_count = 2 ∧
    (undo_handler sample_console (norm_del_char sample_abc_def)).lines 0 = [98, 99] ∧
    (undo_handler sample_console (norm_del_line sample_abc_def)).line_count = 1 ∧
    (undo_handler sample_console (norm_insert_newline sample_abc_def)).line_count = 3 ∧
    (norm_del_char sample_abc_def).undo_top = sample_abc_def.undo_top ∧
    (norm_del_line sample_abc_def).undo_top = sample_abc_def.undo_top ∧
    (norm_insert_newline sample_abc_def).undo_top = sample_abc_def.undo_top := by
  refine ⟨by decide, by decide, by decide, by decide, by decide, by decide, by decide, by decide⟩

/-- C10 (defect in the program): Backspace at column 0 of line 1 of
`["ab","cd"]` joins the lines into `"abcd"` and moves to line 0, but sets `cx`
to the width of the joined line, 4, not to the width 2 of the old line 0; the
byte offset of the cursor is 4, not `strlen("ab") = 2`. -/
theorem backspace_join_cursor_at_line_end :
    (sample_ab_cd.cx = 0 ∧ 0 < sample_ab_cd.cy ∧ sample_ab_cd.cy < sample_ab_cd.line_count) ∧
    doc (insert_dispatch sample_wc2mb sample_console 8 0 [] sample_ab_cd) = [[97, 98, 99, 100]] ∧
    (insert_dispatch sample_wc2mb sample_console 8 0 [] sample_ab_cd).cy = 0 ∧
    (insert_dispatch sample_wc2mb sample_console 8 0 [] sample_ab_cd).cx = 4 ∧
    str_vis_width (sample_ab_cd.lines (sample_ab_cd.cy - 1)) = 2 ∧
    vis2real ((insert_dispatch sample_wc2mb sample_console 8 0 [] sample_ab_cd).lines
        (insert_dispatch sample_wc2mb sample_console 8 0 [] sample_ab_cd).cy)
      (insert_dispatch sample_wc2mb sample_console 8 0 [] sample_ab_cd).cx = 4 ∧
    (sample_ab_cd.lines (sample_ab_cd.cy - 1)).length = 2 := by
  refine ⟨⟨by decide, by decide, by decide⟩, by decide, by decide, by decide, by decide,
    by decide, by decide⟩

end Oneditor

namespace Oneditor

/-! ## Glyph table -/

theorem char_width_of_byte (s : List Nat) (pos c : Nat) (h : s.getD pos 0 = c) :
    char_width s pos = char_width [c] 0 := by
  subst h
  unfold char_width
  rfl

set_option maxRecDepth 100000 in
/-- The classification of all 256 byte values, by enumeration. -/
theorem glyph_table_bytes : ∀ c, c < 256 →
    ((c < 0x80 → utf8_len c = 1 ∧ char_width [c] 0 = 1) ∧
    (c &&& 0xE0 = 0xC0 → utf8_len c = 2 ∧ char_width [c] 0 = 1) ∧
    (c &&& 0xF0 = 0xE0 → utf8_len c = 3 ∧ char_width [c] 0 = 2) ∧
    (c &&& 0xF8 = 0xF0 → utf8_len c = 4 ∧ char_width [c] 0 = 2) ∧
    ((0x80 ≤ c ∧ c ≤ 0xBF) ∨ 0xF8 ≤ c → utf8_len c = 1 ∧ char_width [c] 0 = 1) ∧
    (c < 0x80 ∨ c &&& 0xE0 = 0xC0 ∨ c &&& 0xF0 = 0xE0 ∨ c &&& 0xF8 = 0xF0 ∨
      (0x80 ≤ c ∧ c ≤ 0xBF) ∨ 0xF8 ≤ c) ∧
    (1 ≤ utf8_len c ∧ utf8_len c ≤ 4) ∧ (char_width [c] 0 = 1 ∨ char_width [c] 0 = 2) ∧
    (char_width [c] 0 = 2 ↔ 3 ≤ utf8_len c) ∧
    ((0x80 ≤ c ∧ c ≤ 0xBF) ∨ 0xF8 ≤ c ↔
      ¬ c < 0x80 ∧ c &&& 0xE0 ≠ 0xC0 ∧ c &&& 0xF0 ≠ 0xE0 ∧ c &&& 0xF8 ≠ 0xF0)) := by
  intro c hc
  interval_cases c <;> refine ⟨?_, ?_, ?_, ?_, ?_, ?_, ?_, ?_, ?_, ?_⟩ <;> decide

/-! ## Claims about glyphs and scrolling -/

/-- C15: for a byte `c < 256` standing at offset `pos` of a line, the pair
(`utf8_len`, `char_width`) is (1,1) for `c < 0x80`, (2,1) for a two-byte lead,
(3,2) for a three-byte lead, (4,2) for a four-byte lead and (1,1) for every
other byte, the other bytes being exactly `0x80..0xBF` and `0xF8..0xFF` (last
conjunct); so the length is between 1 and 4, the width is 1 or 2, and the width
is 2 exactly when the length is at least 3. -/
theorem glyph_classification (c : Nat) (hc : c < 256) (s : List Nat) (pos : Nat)
    (hs : s.getD pos 0 = c) :
    (c < 0x80 → utf8_len c = 1 ∧ char_width s pos = 1) ∧
    (c &&& 0xE0 = 0xC0 → utf8_len c = 2 ∧ char_width s pos = 1) ∧
    (c &&& 0xF0 = 0xE0 → utf8_len c = 3 ∧ char_width s pos = 2) ∧
    (c &&& 0xF8 = 0xF0 → utf8_len c = 4 ∧ char_width s pos = 2) ∧
    ((0x80 ≤ c ∧ c ≤ 0xBF) ∨ 0xF8 ≤ c → utf8_len c = 1 ∧ char_width s pos = 1) ∧
    (c < 0x80 ∨ c &&& 0xE0 = 0xC0 ∨ c &&& 0xF0 = 0xE0 ∨ c &&& 0xF8 = 0xF0 ∨
      (0x80 ≤ c ∧ c ≤ 0xBF) ∨ 0xF8 ≤ c) ∧
    (1 ≤ utf8_len c ∧ utf8_len c ≤ 4) ∧ (char_width s pos = 1 ∨ char_width s pos = 2) ∧
    (char_width s pos = 2 ↔ 3 ≤ utf8_len c) ∧
    ((0x80 ≤ c ∧ c ≤ 0xBF) ∨ 0xF8 ≤ c ↔
      ¬ c < 0x80 ∧ c &&& 0xE0 ≠ 0xC0 ∧ c &&& 0xF0 ≠ 0xE0 ∧ c &&& 0xF8 ≠ 0xF0) := by
  rw [char_width_of_byte s pos c hs]
  exact glyph_table_bytes c hc

/-- Witness of C15: the lead byte `0xE4` of "中" has length 3 and width 2. -/
theorem glyph_classification_witness :
    utf8_len 228 = 3 ∧ char_width [228, 184, 173] 0 = 2 :=
  (glyph_classification 228 (by decide) [228, 184, 173] 0 (by decide)).2.2.1 (by decide)

/-- C19: after `adjust_scroll`, with `text_rows = max(1, win_rows - help_lines - 1)`,
the scroll offset lies in `[0, max(0, line_count - text_rows)]`; it is the
clamped value of `cy` when `cy` was above the old scroll, of
`cy - text_rows + 1` when `cy` was at or past `scroll + text_rows`, and of the
old scroll otherwise. -/
theorem adjust_scroll_range (help_lines : Int) (con : Console) (s : Editor) :
    0 ≤ (adjust_scroll help_lines con s).scroll ∧
    (adjust_scroll help_lines con s).scroll
      ≤ max 0 (s.line_count - max 1 (con.win_rows - help_lines - 1)) ∧
    (s.cy < s.scroll → (adjust_scroll help_lines con s).scroll
      = min (max s.cy 0) (max 0 (s.line_count - max 1 (con.win_rows - help_lines - 1)))) ∧
    (s.scroll ≤ s.cy → s.cy ≥ s.scroll + max 1 (con.win_rows - help_lines - 1) →
      (adjust_scroll help_lines con s).scroll
        = min (max (s.cy - max 1 (con.win_rows - help_lines - 1) + 1) 0)
            (max 0 (s.line_count - max 1 (con.win_rows - help_lines - 1)))) ∧
    (s.scroll ≤ s.cy → s.cy < s.scroll + max 1 (con.win_rows - help_lines - 1) →
      (adjust_scroll help_lines con s).scroll
        = min (max s.scroll 0)
            (max 0 (s.line_count - max 1 (con.win_rows - help_lines - 1)))) := by
  simp only [adjust_scroll]
  refine ⟨?_, ?_, ?_, ?_, ?_⟩
  · split_ifs <;> omega
  · split_ifs <;> omega
  · intro h; split_ifs <;> omega
  · intro h1 h2; split_ifs <;> omega
  · intro h1 h2; split_ifs <;> omega

end Oneditor

namespace Oneditor

/-! ## Deleting a line -/

theorem clamp_cx_lines (s : Editor) : (clamp_cx s).lines = s.lines := by
  unfold clamp_cx; split_ifs <;> rfl

/-- Lines after `dd` on a document of more than one line, index by index. -/
theorem norm_del_line_lines (s : Editor) (hlc : 1 < s.line_count) (j : Int) :
    (norm_del_line s).lines j =
      if s.cy ≤ j ∧ j < s.line_count - 1 then s.lines (j + 1) else s.lines j := by
  have hfuel : s.line_count - 1 - s.cy ≤ ((s.line_count - 1 - s.cy).toNat : Int) :=
    Int.self_le_toNat _
  simp only [norm_del_line, if_pos hlc, clamp_cx_lines]
  exact shift_up_loop_apply (s.line_count - 1) _ s.lines s.cy hfuel j

end Oneditor

namespace Oneditor

/-! ## Line lengths under the editing operations -/

theorem delvis_length_le (s : List Nat) (vis : Int) : (delvis s vis).length ≤ s.length := by
  unfold delvis
  simp only
  split_ifs
  · exact le_refl _
  · have hp := utf8_len_pos (s.getD (vis2real s vis) 0)
    simp only [List.length_append, List.length_take, List.length_drop]
    omega

/-- Whenever the call of `insvis` is defined, the line it leaves is within the
capacity. -/
theorem insvis_length_le (s : List Nat) (vis : Int) (ins : List Nat) (inslen : Nat)
    (h : (s.length : Int) ≤ MAX_COLS - 1) (l : List Nat) (hl : insvis s vis ins inslen = some l) :
    (l.length : Int) ≤ MAX_COLS - 1 := by
  unfold insvis at hl
  simp only at hl
  split_ifs at hl with h1 h2 h3
  · cases hl; exact h
  · cases hl
    simp only [List.length_append, List.length_take, List.length_drop]
    push_cast
    omega
  · cases hl; exact h

/-- Under the guard and with the insertion offset within the line, `insvis`
is defined and produces a line of `strlen(s) + inslen` bytes. -/
theorem insvis_length_inside (s : List Nat) (vis : Int) (ins : List Nat) (inslen : Nat)
    (hcap : (s.length : Int) + (inslen : Int) < MAX_COLS - 1) (hn : inslen ≤ ins.length)
    (hpos : vis2real s vis ≤ s.length) :
    ∃ l, insvis s vis ins inslen = some l ∧ l.length = s.length + inslen := by
  unfold insvis
  simp only
  rw [if_neg (by omega), if_pos hpos]
  refine ⟨_, rfl, ?_⟩
  simp only [List.length_append, List.length_take, List.length_drop]
  omega

theorem set_mode_lines (m : EditorMode) (con : Console) (s : Editor) :
    (set_mode m con s).lines = s.lines := rfl

theorem insert_enter_bounded (stale : List Nat) (s : Editor) (h : LinesBounded s)
    (hst : (stale.length : Int) ≤ MAX_COLS - 1) : LinesBounded (insert_enter stale s) := by
  by_cases hlt : s.line_count < MAX_LINES - 1
  · intro j
    rw [insert_enter_lines stale s hlt j]
    have hc := h s.cy
    split_ifs
    · rw [List.length_take]; omega
    · rw [List.length_drop]; omega
    · exact hst
    · exact h _
    · exact h _
  · simp only [insert_enter, if_neg hlt]
    exact h

theorem insert_backspace_bounded (s : Editor) (h : LinesBounded s) :
    LinesBounded (insert_backspace s) := by
  by_cases h1 : s.cx > 0
  · intro j
    simp only [insert_backspace, if_pos h1, set_line, undo_save, Function.update_apply]
    split_ifs
    · have := delvis_length_le (s.lines s.cy) (s.cx - 1)
      have := h s.cy
      omega
    · exact h j
  · by_cases h2 : s.cy > 0
    · by_cases h3 : ((s.lines (s.cy - 1)).length : Int) + ((s.lines s.cy).length : Int)
          < MAX_COLS - 1
      · intro j
        have hfuel : s.line_count - 1 - s.cy ≤ ((s.line_count - 1 - s.cy).toNat : Int) :=
          Int.self_le_toNat _
        have hb : ∀ i, ((Function.update s.lines (s.cy - 1)
            (s.lines (s.cy - 1) ++ s.lines s.cy) i).length : Int) ≤ MAX_COLS - 1 := by
          intro i
          rw [Function.update_apply]
          split_ifs
          · rw [List.length_append]
            push_cast
            omega
          · exact h i
        simp only [insert_backspace, if_neg h1, if_pos h2, undo_save, if_pos h3]
        rw [shift_up_loop_apply _ _ _ _ hfuel j]
        split_ifs
        · exact hb _
        · exact hb _
      · intro j
        simp only [insert_backspace, if_neg h1, if_pos h2, undo_save, if_neg h3]
        exact h j
    · simp only [insert_backspace, if_neg h1, if_neg h2]
      exact h

theorem insert_arrow_lines (arrow : Int) (s : Editor) : (insert_arrow arrow s).lines = s.lines := by
  unfold insert_arrow
  split_ifs <;> first | rfl | rw [clamp_cx_lines]

/-- Insertion of bytes keeps the lines within the capacity whenever the call
of `insvis` is defined. -/
theorem insert_bytes_bounded (utf8 : List Nat) (s : Editor) (h : LinesBounded s)
    (l : List Nat) (hl : insvis (s.lines s.cy) s.cx utf8 utf8.length = some l) :
    LinesBounded (insert_bytes utf8 s) := by
  have hl2 : insvis ((undo_save s).lines (undo_save s).cy) (undo_save s).cx utf8 utf8.length
      = some l := hl
  unfold insert_bytes
  simp only
  split_ifs with h1
  · rw [hl2]
    intro j
    show ((Function.update s.lines s.cy l j).length : Int) ≤ _
    rw [Function.update_apply]
    split_ifs
    · exact insvis_length_le _ _ _ _ (h s.cy) l hl
    · exact h j
  · exact h

theorem norm_del_char_bounded (s : Editor) (h : LinesBounded s) :
    LinesBounded (norm_del_char s) := by
  unfold norm_del_char
  simp only
  split_ifs
  · intro j
    show ((Function.update s.lines s.cy (delvis (s.lines s.cy) s.cx) j).length : Int) ≤ _
    rw [Function.update_apply]
    split_ifs
    · have := delvis_length_le (s.lines s.cy) s.cx
      have := h s.cy
      omega
    · exact h j
  · exact h

theorem norm_del_line_bounded (s : Editor) (h : LinesBounded s) :
    LinesBounded (norm_del_line s) := by
  by_cases hlc : 1 < s.line_count
  · intro j
    rw [norm_del_line_lines s hlc j]
    split_ifs
    · exact h _
    · exact h _
  · intro j
    have hn : ¬ s.line_count > 1 := hlc
    simp only [norm_del_line, if_neg hn, Function.update_apply]
    split_ifs
    · simp [MAX_COLS]
    · exact h j

theorem norm_insert_newline_bounded (s : Editor) (h : LinesBounded s) :
    LinesBounded (norm_insert_newline s) := by
  unfold norm_insert_newline
  split_ifs with hlt
  · intro j
    have hfuel : s.line_count - (s.cy + 1) ≤ ((s.line_count - (s.cy + 1)).toNat : Int) :=
      Int.self_le_toNat _
    show ((Function.update (shift_down_loop (s.cy + 1) (s.line_count - (s.cy + 1)).toNat
      s.lines s.line_count) (s.cy + 1) [] j).length : Int) ≤ _
    rw [Function.update_apply]
    split_ifs
    · simp [MAX_COLS]
    · rw [shift_down_loop_apply _ _ _ _ hfuel j]
      split_ifs
      · exact h _
      · exact h _
  · exact h

theorem sample_abc_def_bounded : LinesBounded sample_abc_def := by
  intro i
  simp only [sample_abc_def]
  split_ifs <;> decide

/-! ## Claims about capacity and the character walk on malformed lines -/

/-- C13 (defect in the program): the line `[0xC3]` (a two-byte lead without its
continuation byte) has room for one more byte and the guard lets the insertion
through, yet `insvis` at column 1 leaves it one byte long: `vis2real` answers
offset 2, behind the terminator, `memmove` moves nothing and the byte is written
behind the terminator.  On the line `[0xE4]` (a three-byte lead without
continuation bytes) at column 2 `vis2real` answers offset 3 and `memmove` is
handed the length `-1`.  Both are reached from the keyboard: on the one-line
documents `[[0xC3]]` and `[[0xE4]]` the key `l` moves the cursor to the end of
the line, and typing `X` there leaves the line `[0xC3]` as it is with the cursor
at column 2, beyond its width, in the first document, and is undefined in the
second. -/
theorem insvis_loses_bytes_behind_terminator :
    (vis2real [195] 1 = 2 ∧ ((([195] : List Nat).length : Int) + (1 : Int) < MAX_COLS - 1) ∧
      insvis [195] 1 [88] 1 = some [195]) ∧
    (vis2real [228] 2 = 3 ∧ ((([228] : List Nat).length : Int) + (1 : Int) < MAX_COLS - 1) ∧
      insvis [228] 2 [88] 1 = none) ∧
    ((norm_right sample_cut_pair).cx = 1 ∧
      (insert_dispatch sample_wc2mb sample_console 88 0 [] (norm_right sample_cut_pair)).lines 0
        = [195] ∧
      (insert_dispatch sample_wc2mb sample_console 88 0 [] (norm_right sample_cut_pair)).cx
        = 2) ∧
    ((norm_right sample_cut_lead).cx = 2 ∧
      (insert_dispatch sample_wc2mb sample_console 88 0 [] (norm_right sample_cut_lead)).fault
        = true) := by
  refine ⟨⟨by decide, by decide, by decide⟩, ⟨by decide, by decide, by decide⟩,
    ⟨by decide, by decide, by decide⟩, ⟨by decide, by decide⟩⟩

/-- C14 (defect in the program): on the NUL-free one-byte line `[0xE4]`, a
three-byte lead without its continuation bytes, `vis2real` at column 2 returns
offset 3, two bytes behind the terminator at offset 1; on `[0xC3]` at column 1
it returns offset 2.  On lines of complete characters the result stays within
the line (`vis2real_le_length_of_complete`). -/
theorem vis2real_oversteps_truncated_char :
    NulFree [228] ∧ vis2real [228] 2 = 3 ∧ ([228] : List Nat).length = 1 ∧
    NulFree [195] ∧ vis2real [195] 1 = 2 ∧ ([195] : List Nat).length = 1 := by
  refine ⟨by unfold NulFree; decide, by decide, by decide, by unfold NulFree; decide,
    by decide, by decide⟩

/-- C12 (defect in the program): the command `r e`, where `e` is an existing
empty file, takes the two-line document `["abc","def"]` to `line_count = 0`:
`file_load` resets `line_count` and its loop reads no line. -/
theorem file_load_empty_file_empties_document :
    1 ≤ sample_abc_def.line_count ∧
    (sample_io [114, 32, 101]).read_file [101] = some [] ∧
    (norm_dispatch sample_console (sample_io [114, 32, 101]) 58 sample_abc_def).line_count = 0 ∧
    (file_load (sample_io []) [101] sample_abc_def).line_count = 0 := by
  refine ⟨by decide, by decide, by decide, by decide⟩

/-- C16 (defect in the program): on `["ab","cd"]` with the cursor on line 1, the
keys `g`, `h`, `g` jump to line 0 at the second `g` although the key before it
was `h`: after `g`, `h` the cursor is still on line 1 and `gcount` is still 1,
because a key with a table entry never reaches the reset.  The keys `G`, `g`
jump to line 0 as well, `G` counting on `gcount`. -/
theorem gg_fires_after_other_key :
    sample_ab_cd.cy = 1 ∧ sample_ab_cd.gcount = 0 ∧
    (norm_keys sample_console (sample_io []) [103, 104] sample_ab_cd).cy = 1 ∧
    (norm_keys sample_console (sample_io []) [103, 104] sample_ab_cd).gcount = 1 ∧
    (norm_keys sample_console (sample_io []) [103, 104, 103] sample_ab_cd).cy = 0 ∧
    (norm_keys sample_console (sample_io []) [71] sample_ab_cd).cy = 1 ∧
    (norm_keys sample_console (sample_io []) [71, 103] sample_ab_cd).cy = 0 := by
  refine ⟨by decide, by decide, by decide, by decide, by decide, by decide, by decide⟩

end Oneditor

namespace Oneditor

/-! ## Dispatch of keys without a table entry -/

theorem norm_dispatch_loop_miss (con : Console) (io : CmdIO) (key : Int) (s : Editor) :
    ∀ table : List (Int × (Console → CmdIO → Int → Editor → Editor)),
      key ∉ table.map Prod.fst →
      norm_dispatch_loop con io key s table = norm_combo_handler key s := by
  intro table
  induction table with
  | nil => intro _; rfl
  | cons e rest ih =>
    intro h
    obtain ⟨k, handler⟩ := e
    simp only [List.map_cons, List.mem_cons, not_or] at h
    simp only [norm_dispatch_loop]
    rw [if_neg (fun hk => h.1 hk.symm)]
    exact ih h.2

theorem norm_dispatch_untabled (con : Console) (io : CmdIO) (key : Int) (s : Editor)
    (hkey : key ∉ normal_cmds.map Prod.fst) :
    norm_dispatch con io key s = { s with gcount := 0, ocount := 0, dcount := 0 } := by
  unfold norm_dispatch
  rw [norm_dispatch_loop_miss con io key s normal_cmds hkey]
  have hk : key ≠ 103 ∧ key ≠ 71 ∧ key ≠ 111 ∧ key ≠ 100 := by
    simp only [normal_cmds, List.map_cons, List.map_nil, List.mem_cons, List.mem_singleton,
      not_or] at hkey
    refine ⟨?_, ?_, ?_, ?_⟩ <;> omega
  unfold norm_combo_handler
  rw [if_neg hk.1, if_neg hk.2.1, if_neg hk.2.2.1, if_neg hk.2.2.2]

/-! ## Claims about key combinations -/

/-- C17, as stated, fails: after one `g` on `["abc","def"]` (`gcount = 1`), the
key `x` runs its own handler and deletes the character under the cursor, and
the counters are not reset. -/
theorem pending_g_then_x_counterexample :
    (norm_dispatch sample_console (sample_io []) 103 sample_abc_def).gcount = 1 ∧
    (norm_dispatch sample_console (sample_io []) 103 sample_abc_def).lines 0 = [97, 98, 99] ∧
    (norm_dispatch sample_console (sample_io []) 120
      (norm_dispatch sample_console (sample_io []) 103 sample_abc_def)).lines 0 = [98, 99] ∧
    (norm_dispatch sample_console (sample_io []) 120
      (norm_dispatch sample_console (sample_io []) 103 sample_abc_def)).gcount = 1 := by
  refine ⟨by decide, by decide, by decide, by decide⟩

/-- C17, amended: in every Normal-mode state, so also when exactly one `g` has
just been pressed, a key that has no entry in the table `normal_cmds` changes
nothing but the combo counters, which it sets to zero: no motion, no edit. -/
theorem untabled_key_resets_counters (con : Console) (io : CmdIO) (key : Int) (s : Editor)
    (hkey : key ∉ normal_cmds.map Prod.fst) :
    norm_dispatch con io key s = { s with gcount := 0, ocount := 0, dcount := 0 } :=
  norm_dispatch_untabled con io key s hkey

/-- Witness of the amended C17: the key `z` after a pending `g`. -/
theorem untabled_key_resets_counters_witness :
    (norm_dispatch sample_console (sample_io []) 122
      (norm_dispatch sample_console (sample_io []) 103 sample_abc_def)).gcount = 0 ∧
    (norm_dispatch sample_console (sample_io []) 122
      (norm_dispatch sample_console (sample_io []) 103 sample_abc_def)).lines 0 = [97, 98, 99] := by
  have h := untabled_key_resets_counters sample_console (sample_io []) 122
    (norm_dispatch sample_console (sample_io []) 103 sample_abc_def) (by decide)
  rw [h]
  exact ⟨rfl, by decide⟩

end Oneditor

namespace Oneditor

/-! ## Substring search -/

theorem getD_ne_zero_lt {s : List Nat} {i : Nat} (h : s.getD i 0 ≠ 0) : i < s.length := by
  by_contra hlt
  exact h (getD_eq_zero_of_length_le s i (by omega))

/-- The needle is exhausted by the inner loop exactly when every remaining byte
of it matches the haystack. -/
theorem strcasestr2_inner_spec (h n : List Nat) (hn : NulFree n) (fuel : Nat) :
    ∀ (hh nn : Nat), n.length ≤ nn + fuel → nn ≤ n.length →
      (n.getD (strcasestr2_inner h n fuel hh nn) 0 = 0 ↔
        ∀ k, nn ≤ k → k < n.length →
          h.getD (hh + (k - nn)) 0 ≠ 0 ∧
            tolower (h.getD (hh + (k - nn)) 0) = tolower (n.getD k 0)) := by
  induction fuel with
  | zero =>
    intro hh nn h1 h2
    simp only [strcasestr2_inner]
    constructor
    · intro _ k hk1 hk2; omega
    · intro _; exact getD_eq_zero_of_length_le n nn (by omega)
  | succ f ih =>
    intro hh nn h1 h2
    simp only [strcasestr2_inner]
    by_cases hc : h.getD hh 0 ≠ 0 ∧ n.getD nn 0 ≠ 0 ∧
        tolower (h.getD hh 0) = tolower (n.getD nn 0)
    · rw [if_pos hc]
      have hlt : nn < n.length := getD_ne_zero_lt hc.2.1
      rw [ih (hh + 1) (nn + 1) (by omega) (by omega)]
      constructor
      · intro hall k hk1 hk2
        by_cases hk : k = nn
        · subst hk
          rw [Nat.sub_self, Nat.add_zero]
          exact ⟨hc.1, hc.2.2⟩
        · have := hall k (by omega) hk2
          rw [show hh + 1 + (k - (nn + 1)) = hh + (k - nn) by omega] at this
          exact this
      · intro hall k hk1 hk2
        have := hall k (by omega) hk2
        rw [show hh + (k - nn) = hh + 1 + (k - (nn + 1)) by omega] at this
        exact this
    · rw [if_neg hc]
      constructor
      · intro h0 k hk1 hk2
        exfalso
        have := nulFree_getD_ne_zero hn (show nn < n.length by omega)
        exact this h0
      · intro hall
        by_contra h0
        have hlt : nn < n.length := getD_ne_zero_lt h0
        have := hall nn (le_refl _) hlt
        rw [Nat.sub_self, Nat.add_zero] at this
        exact hc ⟨this.1, h0, this.2⟩

/-- For a non-empty needle the test made at offset `i` by the outer loop is
`MatchAt`. -/
theorem strcasestr2_test_iff (h n : List Nat) (hh : NulFree h) (hn : NulFree n)
    (hne : n ≠ []) (i : Nat) :
    n.getD (strcasestr2_inner h n n.length i 0) 0 = 0 ↔ MatchAt h n i := by
  rw [strcasestr2_inner_spec h n hn n.length i 0 (by omega) (by omega)]
  have hpos : 0 < n.length := List.length_pos.mpr hne
  constructor
  · intro hall
    constructor
    · have := (hall (n.length - 1) (by omega) (by omega)).1
      have := getD_ne_zero_lt this
      omega
    · intro k hk
      exact (hall k (by omega) hk).2
  · intro hm k _ hk
    rw [Nat.sub_zero]
    exact ⟨nulFree_getD_ne_zero hh (by have := hm.1; omega), hm.2 k hk⟩

theorem strcasestr2_outer_isSome (h n : List Nat) (hh : NulFree h) (hn : NulFree n)
    (hne : n ≠ []) (fuel : Nat) :
    ∀ i, h.length ≤ i + fuel →
      ((strcasestr2_outer h n fuel i).isSome ↔ ∃ j, i ≤ j ∧ MatchAt h n j) := by
  have hpos : 0 < n.length := List.length_pos.mpr hne
  induction fuel with
  | zero =>
    intro i hi
    simp only [strcasestr2_outer, Option.isSome_none, Bool.false_eq_true, false_iff]
    rintro ⟨j, hj, hm⟩
    have := hm.1
    omega
  | succ f ih =>
    intro i hi
    simp only [strcasestr2_outer]
    by_cases h0 : h.getD i 0 ≠ 0
    · rw [if_pos h0]
      by_cases ht : n.getD (strcasestr2_inner h n n.length i 0) 0 = 0
      · rw [if_pos ht]
        simp only [Option.isSome_some, true_iff]
        exact ⟨i, le_refl _, (strcasestr2_test_iff h n hh hn hne i).mp ht⟩
      · rw [if_neg ht, ih (i + 1) (by omega)]
        constructor
        · rintro ⟨j, hj, hm⟩
          exact ⟨j, by omega, hm⟩
        · rintro ⟨j, hj, hm⟩
          refine ⟨j, ?_, hm⟩
          by_contra hlt
          have : j = i := by omega
          subst this
          exact ht ((strcasestr2_test_iff h n hh hn hne j).mpr hm)
    · rw [if_neg h0]
      simp only [Option.isSome_none, Bool.false_eq_true, false_iff]
      rintro ⟨j, hj, hm⟩
      have hlen : h.length ≤ i := by
        by_contra hlt
        exact h0 (nulFree_getD_ne_zero hh (by omega))
      have := hm.1
      omega

/-- `strcasestr2` finds a match exactly when the needle occurs in the haystack. -/
theorem strcasestr2_isSome (h n : List Nat) (hh : NulFree h) (hn : NulFree n) :
    (strcasestr2 h n).isSome ↔ Contains h n := by
  unfold strcasestr2 Contains
  by_cases hne : n = []
  · subst hne
    simp only [List.getD_nil, if_true, Option.isSome_some, true_iff]
    exact ⟨0, by simp, fun k hk => by simp at hk⟩
  · have h0 : n.getD 0 0 ≠ 0 :=
      nulFree_getD_ne_zero hn (List.length_pos.mpr hne)
    rw [if_neg h0, strcasestr2_outer_isSome h n hh hn hne h.length 0 (by omega)]
    constructor
    · rintro ⟨j, _, hm⟩; exact ⟨j, hm⟩
    · rintro ⟨j, hm⟩; exact ⟨j, by omega, hm⟩

/-- The loop of `search_pat`: `none` when no line of the range matches, else the
first matching index of the range. -/
theorem search_loop_spec (lines : Int → List Nat) (pattern : List Nat) (hi : Int) (fuel : Nat) :
    ∀ i : Int, hi - i ≤ fuel →
      (search_loop lines pattern hi fuel i = none ↔
        ∀ j, i ≤ j → j < hi → (strcasestr2 (lines j) pattern).isSome = false) ∧
      (∀ r, search_loop lines pattern hi fuel i = some r →
        i ≤ r ∧ r < hi ∧ (strcasestr2 (lines r) pattern).isSome = true ∧
          ∀ j, i ≤ j → j < r → (strcasestr2 (lines j) pattern).isSome = false) := by
  induction fuel with
  | zero =>
    intro i hfuel
    simp only [search_loop, true_iff]
    refine ⟨fun j h1 h2 => ?_, fun r hr => by simp at hr⟩
    push_cast at hfuel
    omega
  | succ f ih =>
    intro i hfuel
    simp only [search_loop]
    by_cases hlt : i < hi
    · rw [if_pos hlt]
      by_cases hm : (strcasestr2 (lines i) pattern).isSome = true
      · rw [if_pos hm]
        constructor
        · constructor
          · intro h; simp at h
          · intro hall
            have := hall i (le_refl _) hlt
            rw [hm] at this
            simp at this
        · intro r hr
          simp only [Option.some.injEq] at hr
          subst hr
          exact ⟨le_refl _, hlt, hm, fun j h1 h2 => by omega⟩
      · rw [if_neg hm]
        have hm' : (strcasestr2 (lines i) pattern).isSome = false := by
          simpa using hm
        obtain ⟨ih1, ih2⟩ := ih (i + 1) (by push_cast at hfuel; omega)
        constructor
        · rw [ih1]
          constructor
          · intro hall j h1 h2
            by_cases hj : j = i
            · subst hj; exact hm'
            · exact hall j (by omega) h2
          · intro hall j h1 h2
            exact hall j (by omega) h2
        · intro r hr
          obtain ⟨h1, h2, h3, h4⟩ := ih2 r hr
          refine ⟨by omega, h2, h3, ?_⟩
          intro j hj1 hj2
          by_cases hj : j = i
          · subst hj; exact hm'
          · exact h4 j (by omega) hj2
    · rw [if_neg hlt]
      simp only [true_iff]
      exact ⟨fun j h1 h2 => by omega, fun r hr => by simp at hr⟩

theorem search_pat_spec_aux (s : Editor) (pattern : List Nat) (start : Int)
    (hp : NulFree pattern) (hl : ∀ i : Int, 0 ≤ i → i < s.line_count → NulFree (s.lines i))
    (h0 : 0 ≤ start) (h1 : start ≤ s.line_count) :
    (search_pat s pattern start = -1 ↔
      ∀ i : Int, 0 ≤ i → i < s.line_count → ¬ Contains (s.lines i) pattern) ∧
    (search_pat s pattern start ≠ -1 →
      0 ≤ search_pat s pattern start ∧ search_pat s pattern start < s.line_count ∧
      Contains (s.lines (search_pat s pattern start)) pattern ∧
      (start ≤ search_pat s pattern start →
        ∀ j : Int, start ≤ j → j < search_pat s pattern start →
          ¬ Contains (s.lines j) pattern) ∧
      (search_pat s pattern start < start →
        (∀ j : Int, start ≤ j → j < s.line_count → ¬ Contains (s.lines j) pattern) ∧
        ∀ j : Int, 0 ≤ j → j < search_pat s pattern start →
          ¬ Contains (s.lines j) pattern)) := by
  have hyes : ∀ i : Int, 0 ≤ i → i < s.line_count →
      (strcasestr2 (s.lines i) pattern).isSome = true → Contains (s.lines i) pattern :=
    fun i hi0 hi1 h => (strcasestr2_isSome _ _ (hl i hi0 hi1) hp).mp h
  have hno : ∀ i : Int, 0 ≤ i → i < s.line_count →
      (strcasestr2 (s.lines i) pattern).isSome = false → ¬ Contains (s.lines i) pattern := by
    intro i hi0 hi1 h hc
    rw [(strcasestr2_isSome _ _ (hl i hi0 hi1) hp).mpr hc] at h
    exact absurd h (by simp)
  obtain ⟨hA1, hA2⟩ := search_loop_spec s.lines pattern s.line_count
    (s.line_count - start).toNat start (Int.self_le_toNat _)
  obtain ⟨hB1, hB2⟩ := search_loop_spec s.lines pattern start start.toNat 0
    (by have := Int.self_le_toNat start; omega)
  unfold search_pat
  cases hA : search_loop s.lines pattern s.line_count (s.line_count - start).toNat start with
  | some r =>
    obtain ⟨hr1, hr2, hr3, hr4⟩ := hA2 r hA
    simp only
    constructor
    · constructor
      · intro h; omega
      · intro hall
        exact absurd (hyes r (by omega) hr2 hr3) (hall r (by omega) hr2)
    · intro _
      refine ⟨by omega, hr2, hyes r (by omega) hr2 hr3, ?_, fun h => by omega⟩
      intro _ j hj1 hj2
      exact hno j (by omega) (by omega) (hr4 j hj1 hj2)
  | none =>
    have hAll := hA1.mp hA
    cases hB : search_loop s.lines pattern start start.toNat 0 with
    | some r =>
      obtain ⟨hr1, hr2, hr3, hr4⟩ := hB2 r hB
      simp only
      constructor
      · constructor
        · intro h; omega
        · intro hall
          exact absurd (hyes r hr1 (by omega) hr3) (hall r hr1 (by omega))
      · intro _
        refine ⟨hr1, by omega, hyes r hr1 (by omega) hr3, fun h => by omega, fun _ => ⟨?_, ?_⟩⟩
        · intro j hj1 hj2
          exact hno j (by omega) hj2 (hAll j hj1 hj2)
        · intro j hj1 hj2
          exact hno j hj1 (by omega) (hr4 j hj1 hj2)
    | none =>
      have hBll := hB1.mp hB
      simp only
      constructor
      · constructor
        · intro _ i hi0 hi1
          by_cases hs : start ≤ i
          · exact hno i hi0 hi1 (hAll i hs hi1)
          · exact hno i hi0 hi1 (hBll i hi0 (by omega))
        · intro _; trivial
      · intro h
        exact absurd rfl h

/-! ## Claims about search -/

/-- C18: for NUL-free lines and pattern and `0 ≤ start ≤ line_count`,
`search_pat(pattern, start)` is `-1` exactly when no line of the document
contains the pattern as an ASCII-case-insensitive substring (the empty pattern
occurring in every line); otherwise it is the index of a line that contains it
and the first such index in the order `start, …, line_count-1, 0, …, start-1`:
no earlier line of that order contains the pattern. -/
theorem search_pat_spec (s : Editor) (pattern : List Nat) (start : Int)
    (hp : NulFree pattern) (hl : ∀ i : Int, 0 ≤ i → i < s.line_count → NulFree (s.lines i))
    (h0 : 0 ≤ start) (h1 : start ≤ s.line_count) :
    (search_pat s pattern start = -1 ↔
      ∀ i : Int, 0 ≤ i → i < s.line_count → ¬ Contains (s.lines i) pattern) ∧
    (search_pat s pattern start ≠ -1 →
      0 ≤ search_pat s pattern start ∧ search_pat s pattern start < s.line_count ∧
      Contains (s.lines (search_pat s pattern start)) pattern ∧
      (start ≤ search_pat s pattern start →
        ∀ j : Int, start ≤ j → j < search_pat s pattern start →
          ¬ Contains (s.lines j) pattern) ∧
      (search_pat s pattern start < start →
        (∀ j : Int, start ≤ j → j < s.line_count → ¬ Contains (s.lines j) pattern) ∧
        ∀ j : Int, 0 ≤ j → j < search_pat s pattern start →
          ¬ Contains (s.lines j) pattern)) :=
  search_pat_spec_aux s pattern start hp hl h0 h1

theorem sample_abc_def_nulFree :
    ∀ i : Int, 0 ≤ i → i < sample_abc_def.line_count → NulFree (sample_abc_def.lines i) := by
  intro i _ _
  simp only [sample_abc_def]
  split_ifs <;> (unfold NulFree; decide)

/-- Witness of C18: the pattern "B", present only on line 0 of `["abc","def"]`,
is found from `start = 1` by wrapping to line 0, and that line contains it. -/
theorem search_pat_spec_witness :
    search_pat sample_abc_def [66] 1 = 0 ∧ Contains (sample_abc_def.lines 0) [66] := by
  have h := (search_pat_spec sample_abc_def [66] 1 (by unfold NulFree; decide)
    sample_abc_def_nulFree (by decide) (by decide)).2 (by decide)
  have h0 : search_pat sample_abc_def [66] 1 = 0 := by decide
  rw [h0] at h
  exact ⟨h0, h.2.2.1⟩

end Oneditor

namespace Oneditor

/-! ## Command mode facts -/

end Oneditor

namespace Oneditor

/-! ## Scrolling keeps the cursor line in view -/

theorem adjust_scroll_visible_aux (help_lines : Int) (con : Console) (s : Editor)
    (hcy0 : 0 ≤ s.cy) (hcy1 : s.cy < s.line_count) :
    (adjust_scroll help_lines con s).scroll ≤ s.cy ∧
    s.cy < (adjust_scroll help_lines con s).scroll + max 1 (con.win_rows - help_lines - 1) := by
  simp only [adjust_scroll]
  constructor
  · split_ifs <;> omega
  · split_ifs <;> omega

theorem adjust_scroll_bounds (help_lines : Int) (con : Console) (s : Editor) :
    0 ≤ (adjust_scroll help_lines con s).scroll ∧
    (adjust_scroll help_lines con s).scroll
      ≤ max 0 (s.line_count - max 1 (con.win_rows - help_lines - 1)) := by
  simp only [adjust_scroll]
  constructor
  · split_ifs <;> omega
  · split_ifs <;> omega

theorem adjust_scroll_fields (help_lines : Int) (con : Console) (s : Editor) :
    (adjust_scroll help_lines con s).cy = s.cy ∧
    (adjust_scroll help_lines con s).line_count = s.line_count :=
  ⟨rfl, rfl⟩

theorem adjust_scroll_fixed (help_lines : Int) (con : Console) (s : Editor)
    (h0 : 0 ≤ s.scroll) (h1 : s.scroll ≤ s.cy)
    (h2 : s.cy < s.scroll + max 1 (con.win_rows - help_lines - 1))
    (h3 : s.scroll ≤ max 0 (s.line_count - max 1 (con.win_rows - help_lines - 1))) :
    adjust_scroll help_lines con s = s := by
  have hs : (adjust_scroll help_lines con s).scroll = s.scroll := by
    simp only [adjust_scroll]
    split_ifs <;> omega
  have hr : adjust_scroll help_lines con s
      = { s with scroll := (adjust_scroll help_lines con s).scroll } := rfl
  rw [hr, hs]

theorem adjust_scroll_idempotent_aux (help_lines : Int) (con : Console) (s : Editor)
    (hcy0 : 0 ≤ s.cy) (hcy1 : s.cy < s.line_count) :
    adjust_scroll help_lines con (adjust_scroll help_lines con s)
      = adjust_scroll help_lines con s := by
  obtain ⟨hv1, hv2⟩ := adjust_scroll_visible_aux help_lines con s hcy0 hcy1
  obtain ⟨hr0, hr1⟩ := adjust_scroll_bounds help_lines con s
  apply adjust_scroll_fixed
  · exact hr0
  · exact hv1
  · exact hv2
  · exact hr1

/-- C23: for every prior scroll value and window height, with
`0 ≤ cy < line_count` (so `line_count ≥ 1`), after `adjust_scroll` the cursor
line lies in the text window, `scroll ≤ cy < scroll + text_rows` with
`text_rows = max(1, win_rows - help_lines - 1)`; and a second `adjust_scroll`
with the same inputs changes nothing. -/
theorem adjust_scroll_keeps_cursor_visible (help_lines : Int) (con : Console) (s : Editor)
    (hcy0 : 0 ≤ s.cy) (hcy1 : s.cy < s.line_count) :
    (adjust_scroll help_lines con s).scroll ≤ s.cy ∧
    s.cy < (adjust_scroll help_lines con s).scroll + max 1 (con.win_rows - help_lines - 1) ∧
    adjust_scroll help_lines con (adjust_scroll help_lines con s)
      = adjust_scroll help_lines con s :=
  ⟨(adjust_scroll_visible_aux help_lines con s hcy0 hcy1).1,
    (adjust_scroll_visible_aux help_lines con s hcy0 hcy1).2,
    adjust_scroll_idempotent_aux help_lines con s hcy0 hcy1⟩

/-- Witness of C23: the cursor on line 2 of `["a","b","c"]`, prior scroll 7, a
window of 25 rows with 8 help lines. -/
theorem adjust_scroll_keeps_cursor_visible_witness :
    (adjust_scroll 8 sample_console { sample_three_lines with cy := 2, scroll := 7 }).scroll
      ≤ 2 ∧
    (2 : Int) < (adjust_scroll 8 sample_console
      { sample_three_lines with cy := 2, scroll := 7 }).scroll + max 1 (25 - 8 - 1) :=
  ⟨(adjust_scroll_keeps_cursor_visible 8 sample_console
      { sample_three_lines with cy := 2, scroll := 7 } (by decide) (by decide)).1,
    (adjust_scroll_keeps_cursor_visible 8 sample_console
      { sample_three_lines with cy := 2, scroll := 7 } (by decide) (by decide)).2.1⟩

end Oneditor

namespace Oneditor

/-! ## Command history -/

theorem draw_cmd_history (con : Console) (s : Editor) :
    (draw con s).cmd_history = s.cmd_history := rfl

theorem draw_cmd_history_count (con : Console) (s : Editor) :
    (draw con s).cmd_history_count = s.cmd_history_count := rfl

/-- The last branch of `norm_cmdmode`: a command that passes none of the tests of
the chain only enters the history and is followed by a redraw. -/
theorem norm_cmdmode_unrecognized (con : Console) (io : CmdIO) (s : Editor) (raw : List Nat)
    (htyped : io.typed = some raw)
    (hgo : (trim raw).take 3 ≠ [103, 111, 32]) (hf : (trim raw).take 2 ≠ [102, 32])
    (hwq : (trim raw).take 2 ≠ [119, 113]) (hwn : (trim raw).take 2 ≠ [119, 32])
    (hw : trim raw ≠ [119]) (hq : trim raw ≠ [113]) (hqq : trim raw ≠ [113, 33])
    (hr : (trim raw).take 2 ≠ [114, 32]) (hnu : trim raw ≠ [115, 101, 116, 32, 110, 117])
    (hnonu : trim raw ≠ [115, 101, 116, 32, 110, 111, 110, 117])
    (hsh : (trim raw).getD 0 0 ≠ 33) :
    norm_cmdmode con io s = draw con (history_append (trim raw) s) := by
  unfold norm_cmdmode
  rw [htyped]
  dsimp only
  rw [if_neg hgo, if_neg hf, if_neg hwq, if_neg hwn, if_neg hw,
    if_neg (by rintro (h | h); exact hq h; exact hqq h), if_neg hr, if_neg hnu, if_neg hnonu,
    if_neg hsh]

/-- C21: the command `wqx` is trimmed, not empty and of none of the forms of the
command grammar, yet it does not take the unrecognized-command branch: with the
file name `"a"` set, `norm_cmdmode` (also reached by the key `:`) writes the text
to the file `"a"` and ends the program. -/
theorem wq_prefix_saves_and_exits :
    trim [119, 113, 120] = [119, 113, 120] ∧
    (norm_cmdmode sample_console (sample_io_writable [119, 113, 120]) sample_named).exited
      = true ∧
    (norm_cmdmode sample_console (sample_io_writable [119, 113, 120]) sample_named).saved
      = [([97], [[97, 98, 99], [100, 101, 102]])] ∧
    (norm_dispatch sample_console (sample_io_writable [119, 113, 120]) 58 sample_named).exited
      = true ∧
    norm_cmdmode sample_console (sample_io_writable [119, 113, 120]) sample_named
      ≠ draw sample_console (history_append [119, 113, 120] sample_named) := by
  refine ⟨by decide, by decide, by decide, by decide, ?_⟩
  intro h
  have he : (norm_cmdmode sample_console (sample_io_writable [119, 113, 120])
      sample_named).exited = true := by decide
  rw [h] at he
  exact absurd he (by decide)

end Oneditor

namespace Oneditor

/-! ## Depth of the undo ring -/

theorem restore_n_succ (n : Nat) : ∀ e : Editor,
    restore_n (n + 1) e = undo_restore (restore_n n e) := by
  induction n with
  | zero => intro e; rfl
  | succ n ih =>
    intro e
    rw [restore_n, ih (undo_restore e)]
    rfl

/-- The floor pointer after consecutive saves from an empty ring: it stays until
the write pointer has gone once around, then runs one slot ahead of it. -/
theorem save_all_cur (ds : List UndoState) :
    ∀ s : Editor, 0 ≤ s.undo_top → s.undo_top < 100 → s.undo_cur = s.undo_top →
      (save_all ds s).undo_cur =
        if ds.length < 100 then s.undo_top else (s.undo_top + ds.length + 1) % 100 := by
  induction ds using List.reverseRecOn with
  | nil =>
    intro s h0 h1 hc
    simp only [save_all, List.length_nil]
    rw [if_pos (by omega), hc]
  | append_singleton ds a ih =>
    intro s h0 h1 hc
    have htop := (save_all_ring ds s h0 h1).1
    have hcur := ih s h0 h1 hc
    rw [save_all_append]
    have htop2 : (set_doc a (save_all ds s)).undo_top = (s.undo_top + ds.length) % 100 := htop
    have hcur2 : (set_doc a (save_all ds s)).undo_cur =
        if ds.length < 100 then s.undo_top else (s.undo_top + ds.length + 1) % 100 := hcur
    rw [undo_save_cur _ (by rw [htop2]; omega) (by rw [hcur2]; split_ifs <;> omega),
      htop2, hcur2, List.length_append, List.length_singleton]
    push_cast
    split_ifs <;> omega

/-- While the pointers differ, `m` restores step the write pointer back by `m`,
leave floor pointer and slots alone, and the last of them loads the slot it
stepped onto. -/
theorem restore_n_steps (m : Nat) : ∀ e : Editor, 0 ≤ e.undo_top → e.undo_top < 100 →
    (∀ j : Nat, j < m → (e.undo_top - (j : Int)) % 100 ≠ e.undo_cur) →
    (restore_n m e).undo_top = (e.undo_top - (m : Int)) % 100 ∧
    (restore_n m e).undo_cur = e.undo_cur ∧
    (restore_n m e).undo_stack = e.undo_stack ∧
    (1 ≤ m → ∀ d, SnapOf (e.undo_stack ((e.undo_top - (m : Int)) % 100)) d →
      SnapOf (live (restore_n m e)) d) := by
  induction m with
  | zero =>
    intro e h0 h1 _
    refine ⟨by simp only [restore_n]; push_cast; omega, rfl, rfl, fun h => by omega⟩
  | succ m ih =>
    intro e h0 h1 hne
    obtain ⟨it, ic, is, _⟩ := ih e h0 h1 (fun j hj => hne j (by omega))
    have hm := hne m (by omega)
    rw [restore_n_succ]
    have hne2 : (restore_n m e).undo_top ≠ (restore_n m e).undo_cur := by
      rw [it, ic]; exact hm
    have hslot : ((restore_n m e).undo_top + 99) % 100 = (e.undo_top - ((m + 1 : Nat) : Int)) % 100 := by
      rw [it]; push_cast; omega
    have hl := fun d hd => undo_restore_loads (restore_n m e) (by rw [it]; omega)
      (by rw [it]; omega) hne2 d hd
    have hbase := hl _ (snapOf_refl _)
    refine ⟨by rw [hbase.2.1, hslot], by rw [hbase.2.2.1, ic], by rw [hbase.2.2.2, is], ?_⟩
    intro _ d hd
    apply (hl d _).1
    rw [is, hslot]
    exact hd

theorem restore_n_stuck (e : Editor) (h : e.undo_top = e.undo_cur) (j : Nat) :
    restore_n j e = e := by
  induction j with
  | zero => rfl
  | succ j ih => rw [restore_n_succ, ih, undo_restore_noop e h]

theorem restore_n_add (a : Nat) : ∀ (b : Nat) (e : Editor),
    restore_n (a + b) e = restore_n b (restore_n a e) := by
  induction a with
  | zero => intro b e; rw [Nat.zero_add]; rfl
  | succ a ih =>
    intro b e
    rw [show a + 1 + b = (a + b) + 1 by omega, restore_n, restore_n, ih]

theorem undo_depth_aux (ds : List UndoState) (s : Editor)
    (h0 : 0 ≤ s.undo_top) (h1 : s.undo_top < UNDO_STACK) (hempty : s.undo_top = s.undo_cur) :
    (∀ m : Nat, m < min ds.length 99 →
      (restore_n m (save_all ds s)).undo_top ≠ (restore_n m (save_all ds s)).undo_cur ∧
      ∀ d, ds[ds.length - (m + 1)]? = some d →
        SnapOf (live (restore_n (m + 1) (save_all ds s))) d) ∧
    (∀ m : Nat, min ds.length 99 ≤ m →
      undo_restore (restore_n m (save_all ds s)) = restore_n m (save_all ds s) ∧
      restore_n m (save_all ds s) = restore_n (min ds.length 99) (save_all ds s)) := by
  unfold UNDO_STACK at h1
  obtain ⟨htop, hslots⟩ := save_all_ring ds s h0 h1
  have hcur := save_all_cur ds s h0 h1 hempty.symm
  have hR0 : 0 ≤ (save_all ds s).undo_top := by rw [htop]; omega
  have hR1 : (save_all ds s).undo_top < 100 := by rw [htop]; omega
  have hdiff : ∀ j : Nat, j < min ds.length 99 →
      ((save_all ds s).undo_top - (j : Int)) % 100 ≠ (save_all ds s).undo_cur := by
    intro j hj
    rw [htop, hcur]
    have hj1 : j < ds.length := lt_of_lt_of_le hj (min_le_left _ _)
    have hj2 : j < 99 := lt_of_lt_of_le hj (min_le_right _ _)
    split_ifs <;> omega
  constructor
  · intro m hm
    have hm1 : m < ds.length := lt_of_lt_of_le hm (min_le_left _ _)
    have hm2 : m < 99 := lt_of_lt_of_le hm (min_le_right _ _)
    obtain ⟨it, ic, _, _⟩ := restore_n_steps m (save_all ds s) hR0 hR1
      (fun j hj => hdiff j (by omega))
    constructor
    · rw [it, ic]; exact hdiff m hm
    · intro d hd
      obtain ⟨_, _, _, hload⟩ := restore_n_steps (m + 1) (save_all ds s) hR0 hR1
        (fun j hj => hdiff j (by omega))
      apply hload (by omega)
      have hs := hslots (ds.length - (m + 1)) d (by omega) hd
      have he : ((save_all ds s).undo_top - ((m + 1 : Nat) : Int)) % 100
          = (s.undo_top + ((ds.length - (m + 1) : Nat) : Int)) % 100 := by
        rw [htop]
        push_cast [Nat.cast_sub (show m + 1 ≤ ds.length by omega)]
        omega
      rw [he]
      exact hs
  · intro m hm
    obtain ⟨it, ic, _, _⟩ := restore_n_steps (min ds.length 99) (save_all ds s) hR0 hR1 hdiff
    have heq : (restore_n (min ds.length 99) (save_all ds s)).undo_top
        = (restore_n (min ds.length 99) (save_all ds s)).undo_cur := by
      rw [it, ic, htop, hcur]
      rcases Nat.lt_or_ge ds.length 100 with hk | hk
      · rw [if_pos hk, min_eq_left (by omega)]
        omega
      · rw [if_neg (by omega), min_eq_right (by omega)]
        push_cast
        omega
    have hsplit : restore_n m (save_all ds s)
        = restore_n (min ds.length 99) (save_all ds s) := by
      rw [show m = min ds.length 99 + (m - min ds.length 99) by omega, restore_n_add,
        restore_n_stuck _ heq]
    refine ⟨?_, hsplit⟩
    rw [hsplit]
    exact undo_restore_noop _ heq

/-- C24: starting from an empty ring (`undo_top == undo_cur`, both in
`[0, UNDO_STACK)`), after `k` consecutive `undo_save` calls on the documents
`ds[0], …, ds[k-1]`, each of the first `min(k, 99)` following `undo_restore`
calls finds the pointers different and loads a snapshot, the `(m+1)`-th one that
of `ds[k-(m+1)]`; every later call changes nothing, so the state stays the one
reached after `min(k, 99)` restores.  After 100 saves the last snapshot loaded
is that of `ds[1]`; the one of the first save `ds[0]` is never loaded. -/
theorem undo_depth (ds : List UndoState) (s : Editor)
    (h0 : 0 ≤ s.undo_top) (h1 : s.undo_top < UNDO_STACK) (hempty : s.undo_top = s.undo_cur) :
    (∀ m : Nat, m < min ds.length 99 →
      (restore_n m (save_all ds s)).undo_top ≠ (restore_n m (save_all ds s)).undo_cur ∧
      ∀ d, ds[ds.length - (m + 1)]? = some d →
        SnapOf (live (restore_n (m + 1) (save_all ds s))) d) ∧
    (∀ m : Nat, min ds.length 99 ≤ m →
      undo_restore (restore_n m (save_all ds s)) = restore_n m (save_all ds s) ∧
      restore_n m (save_all ds s) = restore_n (min ds.length 99) (save_all ds s)) :=
  undo_depth_aux ds s h0 h1 hempty

/-- Witness of C24: after the 101 saves of `sample_docs` into the initial ring,
the 99th restore loads the document number 2, and the 100th restore changes
nothing. -/
theorem undo_depth_witness :
    SnapOf (live (restore_n 99 (save_all sample_docs {}))) { cx := 2 } ∧
    undo_restore (restore_n 99 (save_all sample_docs {}))
      = restore_n 99 (save_all sample_docs {}) :=
  ⟨((undo_depth sample_docs {} (by decide) (by decide) rfl).1 98 (by decide)).2 { cx := 2 }
      rfl,
    ((undo_depth sample_docs {} (by decide) (by decide) rfl).2 99 (by decide)).1⟩

end Oneditor
